import Mathlib

/-!
# Verification of the multi-camera identity backend

Shallow embedding, in Lean 4, of the identity-resolution backend of this
repository, together with proofs about it:

* `backend/conf/registry.py` (deploy): camera tokens, runtime registry,
  `touch_camera`, `upsert_camera`, `prune_offline`;
* `backend/websocket.py` (deploy): `_update_cam_stats`, `_parse_embedding`,
  the ingest authentication prologue of `ingest_ws`, the per-frame
  processing of `ingest_ws`, and the `/ui` handler `ui_ws`;
* `backend/tracker/mcmot.py`: `SimpleTracker.update`;
* `backend/tracker/association.py`: `_l2norm`, `cosine`,
  `GlobalIDManager.assign`, `_stable_seed`, `mock_embedding`.

Modelling conventions, used throughout:
* Python floats are modelled as exact numbers: rationals (`ℚ`) where only
  ring operations and comparisons occur, reals (`ℝ`) where norms
  (square roots) occur.  Machine rounding is not modelled.
* Python dicts are modelled as insertion-ordered association lists; the
  dict store `d[k] = v` is `dictSet` (replace in place if the key is
  present, else append), matching CPython's insertion-order semantics.
* Functions called with the outside world (wall-clock `time.time()`,
  received messages) take those values as explicit arguments.
-/

namespace CCTV

/-! ## Camera registry — deploy `backend/conf/registry.py`

A runtime registry entry is a camera metadata dict.  The only field of
that dict any verified operation ever reads is `last_seen_ts`
(written by `upsert_camera`/`touch_camera`, read by `prune_offline` via
`cfg.get("last_seen_ts", 0.0)`); the purely-written display metadata
(`name`, `bev_x`, `bev_y`, `theta`, `H`, merged extras) is elided from
the model.  An entry value is therefore the optional `last_seen_ts`. -/

/-- `d[k] = v` on an insertion-ordered association list: replace the
value of an existing key in place, else append the new pair. -/
def dictSet {α : Type} (l : List (ℕ × α)) (k : ℕ) (v : α) : List (ℕ × α) :=
  if l.any fun p => p.1 == k then
    l.map fun p => if p.1 = k then (k, v) else p
  else
    l ++ [(k, v)]

/-- The runtime camera registry `CAMERAS_RUNTIME`: camera id mapped to the
entry's `last_seen_ts` field (`none` when the dict lacks the key). -/
abbrev Registry : Type := List (ℕ × Option ℚ)

/-- `CAM_TOKENS`: the static per-camera ingest tokens. -/
def CAM_TOKENS : List (ℕ × String) :=
  [(0, "dev-token-cam0"), (1, "dev-token-cam1"), (2, "dev-token-cam2")]

/-- `get_cam_token`: the token registered for `cam_id`, else `None`. -/
def get_cam_token (cam_id : ℕ) : Option String :=
  CAM_TOKENS.lookup cam_id

/-- `upsert_camera(str(cam_id), meta)` as called with a numeric id (the
round trip `int(str(cam_id))` is lossless, so the `except` branch is
dead): create or update the runtime entry, set `last_seen_ts = now`,
return whether the camera was new.  The merged display metadata is
elided (see above). -/
def upsert_camera (reg : Registry) (cam_id : ℕ) (now : ℚ) : Bool × Registry :=
  let is_new := (List.lookup cam_id reg).isNone
  (is_new, dictSet reg cam_id (some now))

/-- `touch_camera(cam_id)`: refresh `last_seen_ts` of an existing entry,
else create one through `upsert_camera`; returns whether it was new. -/
def touch_camera (reg : Registry) (cam_id : ℕ) (now : ℚ) : Bool × Registry :=
  if (List.lookup cam_id reg).isSome then
    (false, reg.map fun p => if p.1 = cam_id then (p.1, some now) else p)
  else
    upsert_camera reg cam_id now

/-- The `last_seen = float(cfg.get("last_seen_ts", 0.0))` read of
`prune_offline`. -/
def lastSeenOf (p : ℕ × Option ℚ) : ℚ :=
  p.2.getD 0

/-- `prune_offline(ttl_sec)`: remove every entry with
`now - last_seen > ttl_sec`, returning the removed ids (in registry
order) and the surviving registry. -/
def prune_offline (reg : Registry) (now ttl_sec : ℚ) : List ℕ × Registry :=
  ((reg.filter fun p => decide (ttl_sec < now - lastSeenOf p)).map Prod.fst,
   reg.filter fun p => ! decide (ttl_sec < now - lastSeenOf p))

/-! ## Ingest authentication — deploy `backend/websocket.py`, `ingest_ws`
prologue (lines 374-396): token check before any state is touched. -/

/-- Outcome of the `ingest_ws` connection prologue. -/
inductive IngestOutcome where
  | closed (code : ℕ) (reason : String)
  | accepted (is_new_cam : Bool)
deriving DecidableEq

/-- The `ingest_ws` prologue: read the registered token; close with 1008
if the camera id is unregistered; close with 1008 if the provided
`x-edge-token` header (`none` when absent) differs; otherwise
`touch_camera` registers/refreshes the runtime entry.  Returns the
outcome and the resulting runtime registry. -/
def ingest_connect (reg : Registry) (cam_id : ℕ) (x_edge_token : Option String)
    (now : ℚ) : IngestOutcome × Registry :=
  match get_cam_token cam_id with
  | none => (.closed 1008 "cam not registered", reg)
  | some expected =>
    if x_edge_token ≠ some expected then
      (.closed 1008 "unauthorized", reg)
    else
      let t := touch_camera reg cam_id now
      (.accepted t.1, t.2)

/-! ## Per-camera ingest stats — deploy `backend/websocket.py`,
`_update_cam_stats` (lines 150-180). -/

/-- One camera's entry of `cam_stats`. -/
structure CamStat where
  times : List ℚ
  last_seen_ts : ℚ
  last_seq : Option ℤ
  seq_gap_count : ℕ
  last_capture_ts_us : Option ℤ
deriving DecidableEq

/-- The fresh stats dict created when `cam_stats.get(cam_id)` is `None`. -/
def initCamStat : CamStat :=
  { times := [], last_seen_ts := 0, last_seq := none, seq_gap_count := 0,
    last_capture_ts_us := none }

/-- `FPS_WINDOW_SEC = 2.0`. -/
def FPS_WINDOW_SEC : ℚ := 2

/-- `_update_cam_stats(cam_id, seq=…, capture_ts_us=…)` on one camera's
stats entry (`none` when the camera has no entry yet), with `now` the
value of `time.time()`: refresh `last_seen_ts`, record the capture
timestamp when given, append `now` to the receive-time window and drop
stale times from the front, then run sequence-gap detection. -/
def update_cam_stats (st0 : Option CamStat) (now : ℚ) (seq : Option ℤ)
    (capture_ts_us : Option ℤ) : CamStat :=
  let st := st0.getD initCamStat
  let st := { st with
    last_seen_ts := now
    last_capture_ts_us := match capture_ts_us with
      | some c => some c
      | none => st.last_capture_ts_us }
  let st := { st with
    times := (st.times ++ [now]).dropWhile fun t => decide (t < now - FPS_WINDOW_SEC) }
  match seq with
  | none => st
  | some s =>
    let gap : ℕ := match st.last_seq with
      | some prev => if prev + 1 < s then 1 else 0
      | none => 0
    { st with seq_gap_count := st.seq_gap_count + gap, last_seq := some s }

/-- A camera's stats stream: fold `_update_cam_stats` over the arriving
`(now, seq, capture_ts_us)` triples, starting from an absent entry. -/
def run_cam_stats (frames : List (ℚ × Option ℤ × Option ℤ)) : CamStat :=
  (frames.foldl (fun acc f => some (update_cam_stats acc f.1 f.2.1 f.2.2)) none).getD
    initCamStat

/-! ## Per-camera tracker — `backend/tracker/mcmot.py`, `SimpleTracker`

BEV coordinates are exact rationals.  `math.hypot` returns the true
Euclidean distance; every use of it in `update` is a comparison
(`d < best_d`, initial `best_d = 1e9`, and `best_d > self.dist_th`), so
the model carries *squared* distances: `d < best_d` on nonnegative
distances is exactly `d² < best_d²` (squaring is strictly monotone on
nonnegatives, and the initial best is the constant `1e9`, carried as
`(1e9)² = 10^18`), and `best_d > dist_th` is exactly
`dist_th < 0 ∨ dist_th² < best_d²` (`gtDist`), which is faithful for
every value of `dist_th` including negative ones. -/

/-- The keys of an association list, in insertion order. -/
def keys {α : Type} (l : List (ℕ × α)) : List ℕ :=
  l.map Prod.fst

/-- `SimpleTracker.__init__(dist_th, max_age)` state: `next_id` starts
at 1, `tracks` maps track id to its last position, `age` maps track id
to frames since last seen. -/
structure SimpleTracker where
  dist_th : ℚ
  max_age : ℕ
  next_id : ℕ
  tracks : List (ℕ × ℚ × ℚ)
  age : List (ℕ × ℕ)

/-- `math.hypot(dx, dy)` squared. -/
def hypotSq (dx dy : ℚ) : ℚ :=
  dx * dx + dy * dy

/-- `best_d > self.dist_th` decided on the squared distance `dSq`. -/
def gtDist (dist_th dSq : ℚ) : Bool :=
  decide (dist_th < 0) || decide (dist_th * dist_th < dSq)

/-- The ageing phase at the top of `update`: increment every track's
age, then pop every track whose age exceeds `max_age` from both `age`
and `tracks`.  Returns the surviving `(age, tracks)`. -/
def ageTracks (tr : SimpleTracker) : List (ℕ × ℕ) × List (ℕ × ℚ × ℚ) :=
  let aged := tr.age.map fun p => (p.1, p.2 + 1)
  let evicted := (aged.filter fun p => decide (tr.max_age < p.2)).map Prod.fst
  (aged.filter fun p => ! decide (tr.max_age < p.2),
   tr.tracks.filter fun p => ! decide (p.1 ∈ evicted))

/-- One candidate step of the inner `for tid, (tx, ty) in self.tracks`
loop: skip already-assigned tracks, keep the strictly closer one. -/
def bmStep (assigned : List ℕ) (x y : ℚ) (best : Option ℕ × ℚ)
    (p : ℕ × ℚ × ℚ) : Option ℕ × ℚ :=
  if p.1 ∈ assigned then best
  else
    let d := hypotSq (x - p.2.1) (y - p.2.2)
    if d < best.2 then (some p.1, d) else best

/-- The inner loop: nearest unassigned track, starting from
`(None, 1e9)` (squared: `10^18`). -/
def bestMatch (assigned : List ℕ) (tracks : List (ℕ × ℚ × ℚ))
    (x y : ℚ) : Option ℕ × ℚ :=
  tracks.foldl (bmStep assigned x y) (none, 10 ^ 18)

/-- The mutable state of the per-detection loop of `update`. -/
structure DetLoop where
  tracks : List (ℕ × ℚ × ℚ)
  age : List (ℕ × ℕ)
  next_id : ℕ
  assigned : List ℕ
  results : List (ℕ × ℚ × ℚ)

/-- The body of `for (x, y) in detections`: find the nearest unassigned
track; mint a fresh id if none was found or the best distance exceeds
`dist_th`; then record position, reset age, mark assigned, append the
result. -/
def detStep (dist_th : ℚ) (s : DetLoop) (det : ℚ × ℚ) : DetLoop :=
  let best := bestMatch s.assigned s.tracks det.1 det.2
  let mint : Bool := match best.1 with
    | none => true
    | some _ => gtDist dist_th best.2
  let tid := if mint then s.next_id else best.1.getD s.next_id
  { tracks := dictSet s.tracks tid (det.1, det.2)
    age := dictSet s.age tid 0
    next_id := if mint then s.next_id + 1 else s.next_id
    assigned := tid :: s.assigned
    results := s.results ++ [(tid, det.1, det.2)] }

/-- The loop state right after the ageing phase, before any detection
is processed. -/
def initLoop (tr : SimpleTracker) : DetLoop :=
  { tracks := (ageTracks tr).2, age := (ageTracks tr).1, next_id := tr.next_id,
    assigned := [], results := [] }

/-- The loop state after the first `i` detections of `update`. -/
def loopRun (tr : SimpleTracker) (dets : List (ℚ × ℚ)) (i : ℕ) : DetLoop :=
  (dets.take i).foldl (detStep tr.dist_th) (initLoop tr)

/-- `SimpleTracker.update(detections)`: age and evict, then greedily
assign each detection in input order; returns the `(track_id, x, y)`
results in detection order and the mutated tracker. -/
def SimpleTracker.update (tr : SimpleTracker) (dets : List (ℚ × ℚ)) :
    List (ℕ × ℚ × ℚ) × SimpleTracker :=
  let s := dets.foldl (detStep tr.dist_th) (initLoop tr)
  (s.results, { tr with tracks := s.tracks, age := s.age, next_id := s.next_id })

/-- Run a sequence of `update` calls, keeping only the tracker state. -/
def SimpleTracker.updates (tr : SimpleTracker) (detss : List (List (ℚ × ℚ))) :
    SimpleTracker :=
  detss.foldl (fun t ds => (t.update ds).2) tr

/-- Well-formedness of a tracker state, true of the initial state and
preserved by `update`: track ids are duplicate-free in both maps and
below the id counter. -/
def WF (tr : SimpleTracker) : Prop :=
  (keys tr.tracks).Nodup ∧ (keys tr.age).Nodup
    ∧ (∀ p ∈ tr.tracks, p.1 < tr.next_id) ∧ (∀ p ∈ tr.age, p.1 < tr.next_id)

/-! ## Global Identity Manager — `backend/tracker/association.py`

Embedding vectors are elements of `EuclideanSpace ℝ (Fin n)` (float
arrays idealised as real vectors; the manager's `dim` parameter is the
type index `n`).  `np.linalg.norm` is the Euclidean norm, `np.dot` the
inner product. -/

/-- A `dim`-dimensional appearance embedding (`np.float32` array). -/
abbrev Emb (n : ℕ) : Type := EuclideanSpace ℝ (Fin n)

/-- The `1e-12` guard added to the norm in `_l2norm`. -/
noncomputable def EPS : ℝ := 1 / 10 ^ 12

/-- `_l2norm(v) = v / (np.linalg.norm(v) + 1e-12)`. -/
noncomputable def l2norm {n : ℕ} (v : Emb n) : Emb n :=
  (‖v‖ + EPS)⁻¹ • v

/-- `cosine(a, b) = float(np.dot(_l2norm(a), _l2norm(b)))`. -/
noncomputable def cosine {n : ℕ} (a b : Emb n) : ℝ :=
  inner (l2norm a) (l2norm b)

/-- `GlobalIDManager` state: similarity threshold `th`, EMA retention
factor `ema`, the monotonic id counter `next_gid` (starting at 1), and
the gallery dict mapping global id to its representative vector. -/
structure GlobalIDManager (n : ℕ) where
  th : ℝ
  ema : ℝ
  next_gid : ℕ
  gallery : List (ℕ × Emb n)

open Classical in
/-- One iteration of the `for gid, rep in self.gallery.items()` scan:
`if sim > best_sim: best_sim, best_gid = sim, gid`. -/
noncomputable def gStep {n : ℕ} (emb : Emb n) (best : Option ℕ × ℝ)
    (p : ℕ × Emb n) : Option ℕ × ℝ :=
  if best.2 < cosine emb p.2 then (some p.1, cosine emb p.2) else best

/-- The gallery scan of `assign`, starting from `(None, -1.0)`. -/
noncomputable def bestFold {n : ℕ} (gallery : List (ℕ × Emb n)) (emb : Emb n) :
    Option ℕ × ℝ :=
  gallery.foldl (gStep emb) (none, -1)

/-- The best similarity found by `assign`'s gallery scan (`-1.0` when
the gallery is empty). -/
noncomputable def bestSim {n : ℕ} (m : GlobalIDManager n) (e : Emb n) : ℝ :=
  (bestFold m.gallery e).2

open Classical in
/-- `GlobalIDManager.assign(emb)`: scan the gallery for the most
similar representative; if none was found or the best similarity is
below `th`, mint `next_gid`, store the copied embedding, and return it
with the best similarity found; otherwise return the matched id and
similarity and replace that entry's representative (the dict store on
the unique matching key is written as an in-place map) by
`_l2norm(ema * rep + (1 - ema) * emb)`. -/
noncomputable def assign {n : ℕ} (m : GlobalIDManager n) (emb : Emb n) :
    (ℕ × ℝ) × GlobalIDManager n :=
  let best := bestFold m.gallery emb
  if best.1 = none ∨ best.2 < m.th then
    ((m.next_gid, best.2),
     { m with next_gid := m.next_gid + 1,
              gallery := dictSet m.gallery m.next_gid emb })
  else
    ((best.1.getD m.next_gid, best.2),
     { m with gallery := m.gallery.map fun p =>
         if p.1 = best.1.getD m.next_gid then
           (p.1, l2norm (m.ema • p.2 + (1 - m.ema) • emb))
         else p })

/-- A sequence of `assign` calls, keeping the manager state. -/
noncomputable def runAssigns {n : ℕ} (m : GlobalIDManager n) (es : List (Emb n)) :
    GlobalIDManager n :=
  es.foldl (fun acc e => (assign acc e).2) m

/-- The deployed manager `GlobalIDManager(dim=128, th=0.75, ema=0.9)`
with its fresh state (`next_gid = 1`, empty gallery). -/
noncomputable def gid_manager : GlobalIDManager 128 :=
  { th := 3 / 4, ema := 9 / 10, next_gid := 1, gallery := [] }

/-- A non-unit embedding: `2` in the first coordinate, `0` elsewhere. -/
noncomputable def e2big : Emb 128 :=
  EuclideanSpace.single 0 2

/-- A unit embedding: `1` in the first coordinate, `0` elsewhere. -/
noncomputable def e1unit : Emb 128 :=
  EuclideanSpace.single 0 1

/-- Gallery invariant of the amended unit-norm claim: every
representative has norm in `[1 - 1e-11, 1]`. -/
def GalleryInv {n : ℕ} (m : GlobalIDManager n) : Prop :=
  ∀ p ∈ m.gallery, 1 - 1 / 10 ^ 11 ≤ ‖p.2‖ ∧ ‖p.2‖ ≤ 1

/-- Invariant of the per-detection loop: `n0` is the tracker's
`next_id` on entry and `keys1` the surviving track ids after the
ageing phase. -/
structure LoopInv (n0 : ℕ) (keys1 : List ℕ) (s : DetLoop) : Prop where
  tracksNodup : (keys s.tracks).Nodup
  ageNodup : (keys s.age).Nodup
  tracksLt : ∀ p ∈ s.tracks, p.1 < s.next_id
  ageLt : ∀ p ∈ s.age, p.1 < s.next_id
  assignedLt : ∀ t ∈ s.assigned, t < s.next_id
  resultsNodup : (keys s.results).Nodup
  resultsAssigned : ∀ r ∈ s.results, r.1 ∈ s.assigned
  init_le : n0 ≤ s.next_id
  tracksOrigin : ∀ p ∈ s.tracks, p.1 ∈ keys1 ∨ n0 ≤ p.1
  resultsOrigin : ∀ r ∈ s.results, r.1 ∈ keys1 ∨ n0 ≤ r.1

/-! ## Embedding parsing — deploy `backend/websocket.py`,
`_parse_embedding` (lines 80-148)

`base64.b64decode` (default `validate=False`) discards characters
outside the base64 alphabet, then decodes; a final quad of 1 data
character, or of 2-3 data characters without enough `=` padding, raises
`binascii.Error` — modelled as `none`.  `np.frombuffer` raises
`ValueError` when the buffer size is not a multiple of the item size —
also `none`, caught by the function's outer `except`.  IEEE-754
half/single precision payloads decode to exact rationals by the
sign/exponent/significand formula; the all-ones exponent (inf/NaN) is
mapped through the same formula, since no verified claim reads decoded
values.  `astype(np.float32)` on decoded float16 values is exact, hence
the identity here. -/

/-- The base64 alphabet value of a character, `none` for everything
else (including the `=` pad). -/
def b64Char (c : Char) : Option ℕ :=
  if 'A' ≤ c ∧ c ≤ 'Z' then some (c.toNat - 65)
  else if 'a' ≤ c ∧ c ≤ 'z' then some (c.toNat - 97 + 26)
  else if '0' ≤ c ∧ c ≤ '9' then some (c.toNat - 48 + 52)
  else if c = '+' then some 62
  else if c = '/' then some 63
  else none

/-- Decode a run of base64 digit values into bytes: full quads give 3
bytes, a final pair gives 1, a final triple gives 2. -/
def b64Quads : List ℕ → List ℕ
  | a :: b :: c :: d :: rest =>
      (a * 4 + b / 16) :: ((b % 16) * 16 + c / 4) :: ((c % 4) * 64 + d) :: b64Quads rest
  | [a, b] => [a * 4 + b / 16]
  | [a, b, c] => [a * 4 + b / 16, (b % 16) * 16 + c / 4]
  | _ => []

/-- `base64.b64decode` with `validate=False`: non-alphabet characters
are discarded; a trailing group of one data character, or of two or
three without completing padding, raises (`none`). -/
def b64decode (s : String) : Option (List ℕ) :=
  let digits := s.toList.filterMap b64Char
  let pads := (s.toList.filter fun c => c = '=').length
  if digits.length % 4 = 1 then none
  else if digits.length % 4 = 2 ∧ pads < 2 then none
  else if digits.length % 4 = 3 ∧ pads < 1 then none
  else some (b64Quads digits)

/-- The value of an IEEE-754 half-precision float stored little-endian
in two bytes. -/
def decodeF16 (b0 b1 : ℕ) : ℚ :=
  let bits : ℕ := b0 + 256 * b1
  let sign : ℚ := if bits / 32768 % 2 = 1 then -1 else 1
  let e : ℕ := bits / 1024 % 32
  let m : ℕ := bits % 1024
  if e = 0 then sign * ((m : ℚ) / 2 ^ 10) * (1 / 2 ^ 14)
  else sign * (1 + (m : ℚ) / 2 ^ 10) * 2 ^ e / 2 ^ 15

/-- The value of an IEEE-754 single-precision float stored
little-endian in four bytes. -/
def decodeF32 (b0 b1 b2 b3 : ℕ) : ℚ :=
  let bits : ℕ := b0 + 256 * b1 + 65536 * b2 + 16777216 * b3
  let sign : ℚ := if bits / 2 ^ 31 % 2 = 1 then -1 else 1
  let e : ℕ := bits / 2 ^ 23 % 256
  let m : ℕ := bits % 2 ^ 23
  if e = 0 then sign * ((m : ℚ) / 2 ^ 23) * (1 / 2 ^ 126)
  else sign * (1 + (m : ℚ) / 2 ^ 23) * 2 ^ e / 2 ^ 127

/-- Consecutive 2-byte chunks as float16 values. -/
def chunk2 : List ℕ → List ℚ
  | b0 :: b1 :: rest => decodeF16 b0 b1 :: chunk2 rest
  | _ => []

/-- Consecutive 4-byte chunks as float32 values. -/
def chunk4 : List ℕ → List ℚ
  | b0 :: b1 :: b2 :: b3 :: rest => decodeF32 b0 b1 b2 b3 :: chunk4 rest
  | _ => []

/-- `np.frombuffer(raw, dtype=np.float16)`: fails unless the buffer
length is a multiple of the 2-byte item size. -/
def frombuffer16 (raw : List ℕ) : Option (List ℚ) :=
  if raw.length % 2 = 0 then some (chunk2 raw) else none

/-- `np.frombuffer(raw, dtype=np.float32)`: fails unless the buffer
length is a multiple of the 4-byte item size. -/
def frombuffer32 (raw : List ℕ) : Option (List ℚ) :=
  if raw.length % 4 = 0 then some (chunk4 raw) else none

/-- The `embedding` field of a detection as `np.asarray` sees it: a
flat number list (1-D), a nested list (2-D; a ragged one raises, which
ends in the same `None` as the dimension check), or a bare number
(0-D). -/
inductive EmbField where
  | flat (v : List ℚ)
  | nested (v : List (List ℚ))
  | scalar (q : ℚ)

/-- One detection of an ingest frame message (embedding-related and
position fields; `confidence`/`bbox` are never read by the deploy
backend). -/
structure Det where
  bev_x : Option ℚ
  x : Option ℚ
  bev_y : Option ℚ
  y : Option ℚ
  embedding : Option EmbField
  emb_b64 : Option String
  emb_dtype : Option String
  true_id : Option ℤ

/-- `np.asarray(det["embedding"], dtype=np.float32)`: number of
dimensions and flattened contents. -/
def asarray : EmbField → ℕ × List ℚ
  | .flat v => (1, v)
  | .nested v => (2, v.flatten)
  | .scalar q => (0, [q])

/-- `_parse_embedding(det, expected_dim)`: prefer a structured
`embedding` field; otherwise decode `emb_b64` with the `emb_dtype` tag
(default `float16`); reject unknown tags, decode failures, non-1-D
shapes and dimension mismatches with `None`. -/
def parse_embedding (expected_dim : ℕ) (det : Det) : Option (List ℚ) :=
  let arrOpt : Option (ℕ × List ℚ) :=
    match det.embedding with
    | some f => some (asarray f)
    | none =>
      match det.emb_b64 with
      | some s =>
        if s = "" then none
        else
          match b64decode s with
          | none => none
          | some raw =>
            let dtype := det.emb_dtype.getD "float16"
            if dtype ≠ "float16" ∧ dtype ≠ "float32" then none
            else
              match (if dtype = "float16" then frombuffer16 raw else frombuffer32 raw) with
              | none => none
              | some arr => some (1, arr)
      | none => none
  match arrOpt with
  | none => none
  | some (ndim, arr) =>
    if ndim ≠ 1 then none
    else if arr.length ≠ expected_dim then none
    else some arr

/-- A malformed detection: position present, base64 embedding tagged
with the unknown dtype `float64`, debug tag 7. -/
def detBadDtype : Det :=
  { bev_x := some 1, x := none, bev_y := some 2, y := none,
    embedding := none, emb_b64 := some "AAAA", emb_dtype := some "float64",
    true_id := some 7 }

/-! ## Per-frame ingest processing — deploy `backend/websocket.py`,
`ingest_ws` steps (1)-(3) (lines 412-453)

`mock_embedding`'s internals rest on numpy's seeded generator and are
modelled separately (see `mock_embedding` below); the frame-processing
model takes the mock-vector source as a function argument.  Parsed
float32 vectors enter the identity manager's real-vector domain through
`liftQ`. -/

/-- `d.get("bev_x", d.get("x"))` and the `y` analogue: the position of
a detection, `none` when either coordinate is missing (the detection is
skipped). -/
def detXY (d : Det) : Option (ℚ × ℚ) :=
  match (match d.bev_x with | some v => some v | none => d.x),
        (match d.bev_y with | some v => some v | none => d.y) with
  | some a, some b => some (a, b)
  | _, _ => none

/-- The detections that carry a position, in input order — exactly
those for which `xy`, `embeddings` and `true_ids` get an entry. -/
def posDets (dets : List Det) : List Det :=
  dets.filter fun d => (detXY d).isSome

/-- The embedding fed to `gid_manager.assign` for one positioned
detection: its parsed embedding, or the mock vector derived from its
`true_id` debug tag (default 0) when parsing yielded `None`. -/
def fed_embedding {β : Type} (mock : ℤ → β) (lift : List ℚ → β)
    (expected_dim : ℕ) (d : Det) : β :=
  match parse_embedding expected_dim d with
  | some v => lift v
  | none => mock (d.true_id.getD 0)

/-- The embeddings fed to `assign`, one per positioned detection, in
order (track index `tidx` enumerates exactly these). -/
def fed_embeddings {β : Type} (mock : ℤ → β) (lift : List ℚ → β)
    (expected_dim : ℕ) (dets : List Det) : List β :=
  (posDets dets).map (fed_embedding mock lift expected_dim)

/-- A parsed float32 vector as a point of the identity manager's
real-vector domain (missing coordinates read as 0; parsing guarantees
length 128). -/
noncomputable def liftQ (v : List ℚ) : Emb 128 :=
  fun i => ((v.getD i.val 0 : ℚ) : ℝ)

/-- Successive `gid_manager.assign` calls over a list of embeddings,
collecting the `(gid, sim)` outputs in order. -/
noncomputable def assign_run {n : ℕ} (g : GlobalIDManager n) (embs : List (Emb n)) :
    List (ℕ × ℝ) × GlobalIDManager n :=
  embs.foldl (fun acc e =>
    let r := assign acc.2 e
    (acc.1 ++ [r.1], r.2)) ([], g)

/-- One `cam_out[str(track_id)]` payload. -/
structure TrackPayload where
  bev_x : ℚ
  bev_y : ℚ
  global_id : ℕ
  sim : ℝ
  ts : ℚ

/-- Steps (1)-(3) of the per-frame `ingest_ws` body: collect positioned
detections, run the local tracker on their positions, feed each
resulting track's embedding (parsed, else mock) to `assign`, and build
`cam_out` keyed by local track id, in track order. -/
noncomputable def process_frame (mock : ℤ → Emb 128) (tr : SimpleTracker)
    (g : GlobalIDManager 128) (dets : List Det) (ts : ℚ) :
    List (ℕ × TrackPayload) × SimpleTracker × GlobalIDManager 128 :=
  let tracksOut := tr.update (dets.filterMap detXY)
  let gidOut := assign_run g (fed_embeddings mock liftQ 128 dets)
  (List.zipWith (fun t r => (t.1, TrackPayload.mk t.2.1 t.2.2 r.1 r.2 ts))
      tracksOut.1 gidOut.1,
   tracksOut.2, gidOut.2)

/-! ## Mock embedding — `backend/tracker/association.py`,
`_stable_seed` and `mock_embedding`

`hashlib.sha256` and numpy's generators are library code, not code of
this repository; they enter the model as function arguments:
`sha256` for the digest, `seeded_randn` for
`np.random.RandomState(seed).randn(dim)` (a fixed function of the
seed, which is the point of `_stable_seed`), and `global_randn` for
the *unseeded* process-global `np.random.randn(dim)`, which consumes
and advances a global generator state `σ`. -/

/-- `int.from_bytes(digest[:4], "little")`. -/
def le4 (l : List ℕ) : ℕ :=
  (l.take 4).reverse.foldl (fun acc b => acc * 256 + b) 0

/-- `_stable_seed(*parts)`: the first four digest bytes of the
`"|"`-joined parts, little-endian.  (Unlike the built-in `hash`, no
per-process salt is involved: the result is a fixed function of the
parts.) -/
def stable_seed (sha256 : String → List ℕ) (parts : List String) : ℕ :=
  le4 (sha256 (String.intercalate "|" parts))

/-- `mock_embedding(true_id, dim, noise)`: the base vector is the
seeded, normalized `randn` draw for `_stable_seed(true_id)`; the
returned embedding re-normalizes `base + noise * np.random.randn(dim)`
where the noise draw comes from (and advances) the global generator. -/
noncomputable def mock_embedding {σ : Type} (sha256 : String → List ℕ)
    (seeded_randn : ℕ → (d : ℕ) → Emb d)
    (global_randn : σ → (d : ℕ) → Emb d × σ)
    (true_id : ℤ) (dim : ℕ) (noise : ℝ) (g : σ) : Emb dim × σ :=
  let base := l2norm (seeded_randn (stable_seed sha256 [toString true_id]) dim)
  let z := global_randn g dim
  (l2norm (base + noise • z.1), z.2)

/-- A digest model for the concrete counterexample instantiation. -/
def shaZero : String → List ℕ := fun _ => []

/-- A seeded-draw model returning the zero vector. -/
noncomputable def srZero : ℕ → (d : ℕ) → Emb d := fun _ d => (0 : Emb d)

/-- A global-generator model over state `ℕ`: the draw scales the first
basis vector by the state and advances it. -/
noncomputable def grSingle : ℕ → (d : ℕ) → Emb d × ℕ :=
  fun g d => (if h : 0 < d then (g : ℝ) • EuclideanSpace.single ⟨0, h⟩ 1 else 0, g + 1)

/-! ## The `/ui` control handler — deploy `backend/websocket.py`,
`ui_ws` (lines 284-347)

`ui_ws` assigns `focused_gid` inside its `focus_gid` branch without a
`global focused_gid` declaration, so CPython compiles `focused_gid` as
a local variable of the handler, unbound until that assignment; the
initial focus-state send at the top of the handler
(`ws.send_json({"type": "focus_gid", "data": {"gid": focused_gid}})`)
reads it first and raises `UnboundLocalError` on every connection,
before the receive loop is entered. -/

/-- A CPython local-variable slot: unbound until first assignment;
reading an unbound slot raises `UnboundLocalError`. -/
inductive PyLocalVar (α : Type) where
  | unbound
  | assigned (v : α)

/-- Reading a local-variable slot. -/
def localRead {α : Type} (v : PyLocalVar α) : Except String α :=
  match v with
  | .unbound => .error "UnboundLocalError"
  | .assigned a => .ok a

/-- The value `ui_ws` embeds in its initial focus-state send: the read
of the function-local, still-unbound `focused_gid` slot. -/
def ui_ws_initial_focus_read : Except String (Option ℤ) :=
  localRead PyLocalVar.unbound

/-- The `ui_ws` handler on a connection that would deliver `msgs`: the
initial focus-state send faults before any message is received, so the
receive loop (normalization, rebroadcast, `cam_meta` upsert) is never
entered — its body is unreachable for every input. -/
def ui_ws_run {μ : Type} (msgs : List μ) : Except String (List μ) :=
  match ui_ws_initial_focus_read with
  | .error e => .error e
  | .ok _ => .ok msgs

end CCTV

namespace CCTV

/-! ## Theorems: registry pruning (C10) and ingest authentication (C6) -/

theorem dictSet_of_not_mem {α : Type} (l : List (ℕ × α)) (k : ℕ) (v : α)
    (h : ∀ p ∈ l, p.1 ≠ k) : dictSet l k v = l ++ [(k, v)] := by
  unfold dictSet
  rw [if_neg]
  simp only [List.any_eq_true, beq_iff_eq, not_exists, not_and]
  intro p hp
  exact fun hk => h p hp hk

/-- C10: `prune_offline(ttl)` removes exactly the entries whose last-seen
timestamp is more than `ttl` old at `now`, returns their ids, and is
idempotent: an immediately subsequent call at the same instant removes
nothing and leaves the registry unchanged. -/
theorem C10_prune_offline_exact_and_idempotent (reg : Registry) (now ttl : ℚ) :
    (prune_offline reg now ttl).1
        = (reg.filter fun p => decide (ttl < now - lastSeenOf p)).map Prod.fst
    ∧ (∀ p, p ∈ (prune_offline reg now ttl).2 ↔
        p ∈ reg ∧ ¬ ttl < now - lastSeenOf p)
    ∧ prune_offline (prune_offline reg now ttl).2 now ttl
        = ([], (prune_offline reg now ttl).2) := by
  refine ⟨rfl, ?_, ?_⟩
  · intro p
    simp [prune_offline, List.mem_filter]
  · show (prune_offline (reg.filter fun p => ! decide (ttl < now - lastSeenOf p)) now ttl) = _
    unfold prune_offline
    refine Prod.ext ?_ ?_
    · show List.map _ _ = []
      rw [List.filter_filter]
      rw [List.filter_eq_nil_iff.2, List.map_nil]
      intro p _
      simp
    · show List.filter _ _ = List.filter _ _
      rw [List.filter_filter]
      apply List.filter_congr
      intro p _
      simp

/-- C6: if the camera id has no registered token, or the supplied
`x-edge-token` differs from the registered token, the ingest prologue
closes the connection with policy-violation code 1008 and leaves the
runtime registry unchanged — no entry is created. -/
theorem C6_ingest_auth_failure_closes_1008 (reg : Registry) (cam_id : ℕ)
    (tok : Option String) (now : ℚ) :
    (get_cam_token cam_id = none →
      ingest_connect reg cam_id tok now = (.closed 1008 "cam not registered", reg))
    ∧ (∀ expected, get_cam_token cam_id = some expected → tok ≠ some expected →
      ingest_connect reg cam_id tok now = (.closed 1008 "unauthorized", reg)) := by
  constructor
  · intro h
    unfold ingest_connect
    rw [h]
  · intro expected h hne
    unfold ingest_connect
    rw [h]
    simp [hne]

/-- C6 witness: camera id 99 has no registered token, and the prologue
rejects it with code 1008 leaving the (empty) registry untouched. -/
theorem C6_witness :
    ingest_connect [] 99 (some "bad-token") 0
      = (.closed 1008 "cam not registered", []) :=
  (C6_ingest_auth_failure_closes_1008 [] 99 (some "bad-token") 0).1 (by decide)

/-! ## Theorems: sequence-gap counting (C5) -/

/-- C5: the gap counter increments exactly when the new sequence number
exceeds the previously recorded one by more than one (out-of-order or
repeated numbers never increment it), `last_seq` is then set to the new
number, and on the stream 1, 2, 4 the counter increments exactly once,
ending with `last_seq = 4`. -/
theorem C5_seq_gap_spec (st0 : Option CamStat) (now : ℚ) (capture : Option ℤ) :
    (∀ s prev, (st0.getD initCamStat).last_seq = some prev →
      (update_cam_stats st0 now (some s) capture).seq_gap_count
        = (st0.getD initCamStat).seq_gap_count + (if prev + 1 < s then 1 else 0)
      ∧ (update_cam_stats st0 now (some s) capture).last_seq = some s)
    ∧ (∀ s, (st0.getD initCamStat).last_seq = none →
      (update_cam_stats st0 now (some s) capture).seq_gap_count
        = (st0.getD initCamStat).seq_gap_count
      ∧ (update_cam_stats st0 now (some s) capture).last_seq = some s)
    ∧ ((update_cam_stats st0 now none capture).seq_gap_count
        = (st0.getD initCamStat).seq_gap_count
      ∧ (update_cam_stats st0 now none capture).last_seq
        = (st0.getD initCamStat).last_seq)
    ∧ ((run_cam_stats [(0, some 1, none), (1, some 2, none), (2, some 4, none)]).seq_gap_count = 1
      ∧ (run_cam_stats [(0, some 1, none), (1, some 2, none), (2, some 4, none)]).last_seq = some 4) := by
  refine ⟨?_, ?_, ?_, ?_⟩
  · intro s prev h
    simp [update_cam_stats, h]
  · intro s h
    simp [update_cam_stats, h]
  · unfold update_cam_stats
    exact ⟨rfl, rfl⟩
  · constructor <;>
    · unfold run_cam_stats update_cam_stats initCamStat FPS_WINDOW_SEC
      norm_num [List.dropWhile]

/-! ## Association-list lemmas -/

theorem any_key_eq {α : Type} (l : List (ℕ × α)) (k : ℕ) :
    (l.any fun p => p.1 == k) = true ↔ k ∈ keys l := by
  simp only [List.any_eq_true, beq_iff_eq, keys, List.mem_map]

theorem mem_dictSet {α : Type} {l : List (ℕ × α)} {k : ℕ} {v : α} {p : ℕ × α}
    (h : p ∈ dictSet l k v) : p = (k, v) ∨ (p ∈ l ∧ p.1 ≠ k) := by
  unfold dictSet at h
  by_cases hc : (l.any fun p => p.1 == k) = true
  · rw [if_pos hc] at h
    obtain ⟨q, hq, he⟩ := List.mem_map.1 h
    by_cases hk : q.1 = k
    · left
      rw [← he, if_pos hk]
    · right
      rw [← he, if_neg hk]
      exact ⟨hq, hk⟩
  · rw [if_neg hc] at h
    rcases List.mem_append.1 h with h1 | h1
    · right
      refine ⟨h1, fun hk => hc ?_⟩
      rw [any_key_eq]
      rw [← hk]
      exact List.mem_map.2 ⟨p, h1, rfl⟩
    · left
      simpa using h1

theorem dictSet_mem_self {α : Type} (l : List (ℕ × α)) (k : ℕ) (v : α) :
    (k, v) ∈ dictSet l k v := by
  unfold dictSet
  by_cases hc : (l.any fun p => p.1 == k) = true
  · rw [if_pos hc]
    rw [any_key_eq] at hc
    obtain ⟨q, hq, he⟩ := List.mem_map.1 hc
    exact List.mem_map.2 ⟨q, hq, by rw [if_pos he]⟩
  · rw [if_neg hc]
    simp

theorem dictSet_mem_of_ne {α : Type} {l : List (ℕ × α)} {k : ℕ} {v : α}
    {p : ℕ × α} (hp : p ∈ l) (hk : p.1 ≠ k) : p ∈ dictSet l k v := by
  unfold dictSet
  by_cases hc : (l.any fun p => p.1 == k) = true
  · rw [if_pos hc]
    exact List.mem_map.2 ⟨p, hp, by rw [if_neg hk]⟩
  · rw [if_neg hc]
    exact List.mem_append_left _ hp

theorem keys_dictSet {α : Type} (l : List (ℕ × α)) (k : ℕ) (v : α) :
    keys (dictSet l k v) = if k ∈ keys l then keys l else keys l ++ [k] := by
  unfold dictSet
  by_cases hc : k ∈ keys l
  · rw [if_pos ((any_key_eq l k).2 hc), if_pos hc]
    unfold keys
    rw [List.map_map]
    apply List.map_congr_left
    intro p _
    by_cases hk : p.1 = k
    · simp [hk]
    · simp [hk]
  · rw [if_neg fun h => hc ((any_key_eq l k).1 h), if_neg hc]
    simp [keys]

theorem mem_keys_dictSet {α : Type} {l : List (ℕ × α)} {k : ℕ} {v : α} {t : ℕ}
    (h : t ∈ keys (dictSet l k v)) : t = k ∨ t ∈ keys l := by
  rw [keys_dictSet] at h
  split at h
  · exact Or.inr h
  · rcases List.mem_append.1 h with h1 | h1
    · exact Or.inr h1
    · exact Or.inl (by simpa using h1)

theorem keys_dictSet_nodup {α : Type} {l : List (ℕ × α)} (k : ℕ) (v : α)
    (h : (keys l).Nodup) : (keys (dictSet l k v)).Nodup := by
  rw [keys_dictSet]
  split
  · exact h
  · next hk =>
    rw [List.nodup_append]
    exact ⟨h, List.nodup_singleton k, by simpa using hk⟩

/-- The value at a key of an association list with duplicate-free keys
is unique. -/
theorem keys_nodup_val_eq {α : Type} :
    ∀ {l : List (ℕ × α)}, (keys l).Nodup →
      ∀ {k : ℕ} {v w : α}, (k, v) ∈ l → (k, w) ∈ l → v = w
  | [], _, _, _, _, hv, _ => by cases hv
  | p :: rest, h, k, v, w, hv, hw => by
    have hnd := h
    rw [keys, List.map_cons, List.nodup_cons] at hnd
    rcases List.mem_cons.1 hv with h1 | h1 <;> rcases List.mem_cons.1 hw with h2 | h2
    · rw [← h1] at h2
      exact (Prod.mk.injEq _ _ _ _ ▸ h2.symm).2
    · exfalso
      apply hnd.1
      rw [← h1]
      exact List.mem_map.2 ⟨(k, w), h2, rfl⟩
    · exfalso
      apply hnd.1
      rw [← h2]
      exact List.mem_map.2 ⟨(k, v), h1, rfl⟩
    · exact keys_nodup_val_eq hnd.2 h1 h2

/-! ## Tracker lemmas: the nearest-unassigned-track fold -/

theorem bm_go (a : List ℕ) (x y : ℚ) :
    ∀ (l : List (ℕ × ℚ × ℚ)) (acc : Option ℕ × ℚ),
      (l.foldl (bmStep a x y) acc = acc
        ∨ ∃ t px py, (t, px, py) ∈ l ∧ t ∉ a
            ∧ l.foldl (bmStep a x y) acc = (some t, hypotSq (x - px) (y - py)))
      ∧ (l.foldl (bmStep a x y) acc).2 ≤ acc.2
      ∧ (∀ t px py, (t, px, py) ∈ l → t ∉ a →
          (l.foldl (bmStep a x y) acc).2 ≤ hypotSq (x - px) (y - py))
      ∧ ((l.foldl (bmStep a x y) acc).1 = none →
          l.foldl (bmStep a x y) acc = acc
          ∧ ∀ t px py, (t, px, py) ∈ l → t ∉ a →
              acc.2 ≤ hypotSq (x - px) (y - py))
  | [], acc => by simp
  | p :: rest, acc => by
    have ih := bm_go a x y rest (bmStep a x y acc p)
    rw [List.foldl_cons]
    have hstep : bmStep a x y acc p = acc
        ∨ (p.1 ∉ a ∧ bmStep a x y acc p = (some p.1, hypotSq (x - p.2.1) (y - p.2.2))
            ∧ hypotSq (x - p.2.1) (y - p.2.2) < acc.2) := by
      unfold bmStep
      by_cases h1 : p.1 ∈ a
      · left
        rw [if_pos h1]
      · by_cases h2 : hypotSq (x - p.2.1) (y - p.2.2) < acc.2
        · right
          exact ⟨h1, by rw [if_neg h1]; exact if_pos h2, h2⟩
        · left
          rw [if_neg h1]
          exact if_neg h2
    have hstep2 : (bmStep a x y acc p).2 ≤ acc.2 := by
      rcases hstep with h | ⟨_, h, hlt⟩
      · rw [h]
      · rw [h]
        exact le_of_lt hlt
    have hcand : p.1 ∉ a → (bmStep a x y acc p).2 ≤ hypotSq (x - p.2.1) (y - p.2.2) := by
      intro h1
      unfold bmStep
      rw [if_neg h1]
      by_cases h2 : hypotSq (x - p.2.1) (y - p.2.2) < acc.2
      · rw [if_pos h2]
      · rw [if_neg h2]
        exact le_of_not_lt h2
    refine ⟨?_, ?_, ?_, ?_⟩
    · rcases ih.1 with he | ⟨t, px, py, hm, hna, he⟩
      · rw [he]
        rcases hstep with h | ⟨hna, h, _⟩
        · left
          exact h
        · right
          refine ⟨p.1, p.2.1, p.2.2, ?_, hna, h⟩
          have hp : (p.1, p.2.1, p.2.2) = p := rfl
          rw [hp]
          exact List.mem_cons_self p rest
      · right
        exact ⟨t, px, py, List.mem_cons_of_mem _ hm, hna, he⟩
    · exact le_trans ih.2.1 hstep2
    · intro t px py hm hna
      rcases List.mem_cons.1 hm with he | hm2
      · have h1 : p.1 = t := by rw [← he]
        have h2 : p.2.1 = px := by rw [← he]
        have h3 : p.2.2 = py := by rw [← he]
        have := hcand (h1 ▸ hna)
        rw [h2, h3] at this
        exact le_trans ih.2.1 this
      · exact ih.2.2.1 t px py hm2 hna
    · intro hnone
      have ihn := ih.2.2.2 hnone
      have hstepn : bmStep a x y acc p = acc := by
        rcases hstep with h | ⟨_, h, _⟩
        · exact h
        · exfalso
          have hsome : (rest.foldl (bmStep a x y) (bmStep a x y acc p)).1 = some p.1 := by
            rw [ihn.1, h]
          rw [hnone] at hsome
          cases hsome
      refine ⟨by rw [ihn.1, hstepn], ?_⟩
      intro t px py hm hna
      rcases List.mem_cons.1 hm with he | hm2
      · have h1 : p.1 = t := by rw [← he]
        have h2 : p.2.1 = px := by rw [← he]
        have h3 : p.2.2 = py := by rw [← he]
        by_contra hlt
        push_neg at hlt
        have hupd : bmStep a x y acc p = (some p.1, hypotSq (x - p.2.1) (y - p.2.2)) := by
          unfold bmStep
          rw [if_neg (h1 ▸ hna)]
          exact if_pos (by rw [h2, h3]; exact hlt)
        rw [hstepn] at hupd
        have : acc.2 = hypotSq (x - px) (y - py) := by
          rw [hupd, h2, h3]
        rw [this] at hlt
        exact absurd hlt (lt_irrefl _)
      · have := ihn.2 t px py hm2 hna
        rw [hstepn] at this
        exact this

theorem bestMatch_none {a : List ℕ} {tks : List (ℕ × ℚ × ℚ)} {x y : ℚ}
    (h : (bestMatch a tks x y).1 = none) :
    ∀ t px py, (t, px, py) ∈ tks → t ∉ a →
      (10 : ℚ) ^ 18 ≤ hypotSq (x - px) (y - py) :=
  fun t px py hm hna =>
    ((bm_go a x y tks (none, 10 ^ 18)).2.2.2 h).2 t px py hm hna

theorem bestMatch_some {a : List ℕ} {tks : List (ℕ × ℚ × ℚ)} {x y : ℚ} {t : ℕ}
    (h : (bestMatch a tks x y).1 = some t) :
    ∃ px py, (t, px, py) ∈ tks ∧ t ∉ a
      ∧ (bestMatch a tks x y).2 = hypotSq (x - px) (y - py) := by
  rcases (bm_go a x y tks (none, 10 ^ 18)).1 with he | ⟨t2, px, py, hm, hna, he⟩
  · rw [show bestMatch a tks x y = tks.foldl (bmStep a x y) (none, 10 ^ 18) from rfl,
      he] at h
    cases h
  · have h2 : t2 = t := by
      have : (bestMatch a tks x y).1 = some t2 := by
        rw [show bestMatch a tks x y = tks.foldl (bmStep a x y) (none, 10 ^ 18) from rfl,
          he]
      rw [h] at this
      exact (Option.some.injEq _ _ ▸ this).symm
    subst h2
    exact ⟨px, py, hm, hna,
      by rw [show bestMatch a tks x y = tks.foldl (bmStep a x y) (none, 10 ^ 18) from rfl,
        he]⟩

theorem bestMatch_min (a : List ℕ) (tks : List (ℕ × ℚ × ℚ)) (x y : ℚ) :
    ∀ t px py, (t, px, py) ∈ tks → t ∉ a →
      (bestMatch a tks x y).2 ≤ hypotSq (x - px) (y - py) :=
  (bm_go a x y tks (none, 10 ^ 18)).2.2.1

/-- Full case analysis of one iteration of the per-detection loop:
either a fresh id is minted (and every unassigned surviving track is
farther than `dist_th`, or farther than the `1e9` search bound) or the
detection is matched to a nearest unassigned track within `dist_th`. -/
theorem detStep_spec (th : ℚ) (s : DetLoop) (d : ℚ × ℚ) :
    ∃ tid,
      (detStep th s d).tracks = dictSet s.tracks tid (d.1, d.2)
      ∧ (detStep th s d).age = dictSet s.age tid 0
      ∧ (detStep th s d).assigned = tid :: s.assigned
      ∧ (detStep th s d).results = s.results ++ [(tid, d.1, d.2)]
      ∧ ((tid = s.next_id ∧ (detStep th s d).next_id = s.next_id + 1
            ∧ ∀ t px py, (t, px, py) ∈ s.tracks → t ∉ s.assigned →
                th < 0 ∨ th * th < hypotSq (d.1 - px) (d.2 - py)
                  ∨ (10 : ℚ) ^ 18 ≤ hypotSq (d.1 - px) (d.2 - py))
        ∨ ((detStep th s d).next_id = s.next_id
            ∧ ∃ px py, (tid, px, py) ∈ s.tracks ∧ tid ∉ s.assigned
                ∧ ¬ th < 0 ∧ hypotSq (d.1 - px) (d.2 - py) ≤ th * th
                ∧ ∀ t qx qy, (t, qx, qy) ∈ s.tracks → t ∉ s.assigned →
                    hypotSq (d.1 - px) (d.2 - py) ≤ hypotSq (d.1 - qx) (d.2 - qy))) := by
  rcases hb : (bestMatch s.assigned s.tracks d.1 d.2).1 with _ | t
  · refine ⟨s.next_id, ?_⟩
    simp only [detStep, hb]
    refine ⟨by trivial, by trivial, by trivial, by trivial,
      Or.inl ⟨by trivial, by trivial, ?_⟩⟩
    intro t px py hm hna
    exact Or.inr (Or.inr (bestMatch_none hb t px py hm hna))
  · rcases hg : gtDist th (bestMatch s.assigned s.tracks d.1 d.2).2 with _ | _
    · obtain ⟨px, py, hm, hna, he⟩ := bestMatch_some hb
      refine ⟨t, ?_⟩
      simp only [detStep, hb, hg, Bool.false_eq_true, if_false, Option.getD_some]
      have hgf := hg
      unfold gtDist at hgf
      rw [Bool.or_eq_false_iff, decide_eq_false_iff_not, decide_eq_false_iff_not] at hgf
      refine ⟨by trivial, by trivial, by trivial, by trivial,
        Or.inr ⟨by trivial, px, py, hm, hna, hgf.1, ?_, ?_⟩⟩
      · rw [← he]
        exact le_of_not_lt hgf.2
      · intro t2 qx qy hm2 hna2
        rw [← he]
        exact bestMatch_min s.assigned s.tracks d.1 d.2 t2 qx qy hm2 hna2
    · refine ⟨s.next_id, ?_⟩
      simp only [detStep, hb, hg, if_true]
      have hgt := hg
      unfold gtDist at hgt
      rw [Bool.or_eq_true_iff, decide_eq_true_eq, decide_eq_true_eq] at hgt
      refine ⟨by trivial, by trivial, by trivial, by trivial,
        Or.inl ⟨by trivial, by trivial, ?_⟩⟩
      intro t2 px py hm hna
      rcases hgt with h0 | hlt
      · exact Or.inl h0
      · exact Or.inr (Or.inl
          (lt_of_lt_of_le hlt (bestMatch_min s.assigned s.tracks d.1 d.2 t2 px py hm hna)))

/-- One loop iteration never decreases the id counter. -/
theorem detStep_next_mono (th : ℚ) (s : DetLoop) (d : ℚ × ℚ) :
    s.next_id ≤ (detStep th s d).next_id := by
  obtain ⟨tid, _, _, _, _, hc⟩ := detStep_spec th s d
  rcases hc with ⟨_, h, _⟩ | ⟨h, _⟩
  · rw [h]
    exact Nat.le_succ _
  · rw [h]

/-- The loop invariant is preserved by one iteration. -/
theorem detStep_inv {n0 : ℕ} {keys1 : List ℕ} {s : DetLoop} (th : ℚ) (d : ℚ × ℚ)
    (h : LoopInv n0 keys1 s) : LoopInv n0 keys1 (detStep th s d) := by
  obtain ⟨tid, htr, hag, has, hre, hc⟩ := detStep_spec th s d
  have htid_lt : tid < (detStep th s d).next_id := by
    rcases hc with ⟨he, hn, _⟩ | ⟨hn, px, py, hm, _, _⟩
    · rw [he, hn]
      exact Nat.lt_succ_self _
    · rw [hn]
      exact h.tracksLt _ hm
  have hnext : s.next_id ≤ (detStep th s d).next_id := detStep_next_mono th s d
  have htid_nin_assigned : tid ∉ s.assigned := by
    rcases hc with ⟨he, _, _⟩ | ⟨_, px, py, _, hna, _⟩
    · rw [he]
      intro hmem
      exact absurd (h.assignedLt _ hmem) (lt_irrefl _)
    · exact hna
  have htid_origin : tid ∈ keys1 ∨ n0 ≤ tid := by
    rcases hc with ⟨he, _, _⟩ | ⟨_, px, py, hm, _, _⟩
    · rw [he]
      exact Or.inr h.init_le
    · exact h.tracksOrigin _ hm
  constructor
  · rw [htr]
    exact keys_dictSet_nodup tid _ h.tracksNodup
  · rw [hag]
    exact keys_dictSet_nodup tid _ h.ageNodup
  · rw [htr]
    intro p hp
    rcases mem_dictSet hp with he | ⟨hmem, _⟩
    · rw [he]
      exact htid_lt
    · exact lt_of_lt_of_le (h.tracksLt p hmem) hnext
  · rw [hag]
    intro p hp
    rcases mem_dictSet hp with he | ⟨hmem, _⟩
    · rw [he]
      exact htid_lt
    · exact lt_of_lt_of_le (h.ageLt p hmem) hnext
  · rw [has]
    intro t2 ht2
    rcases List.mem_cons.1 ht2 with he | hmem
    · rw [he]
      exact htid_lt
    · exact lt_of_lt_of_le (h.assignedLt t2 hmem) hnext
  · rw [hre]
    unfold keys
    rw [List.map_append, List.nodup_append]
    refine ⟨h.resultsNodup, by simp, ?_⟩
    intro t2 ht2
    simp only [List.map_cons, List.map_nil, List.mem_singleton]
    intro he
    obtain ⟨r, hr, hrfst⟩ := List.mem_map.1 ht2
    apply htid_nin_assigned
    rw [← he, ← hrfst]
    exact h.resultsAssigned r hr
  · rw [hre, has]
    intro r hr
    rcases List.mem_append.1 hr with hmem | hmem
    · exact List.mem_cons_of_mem _ (h.resultsAssigned r hmem)
    · simp only [List.mem_singleton] at hmem
      rw [hmem]
      exact List.mem_cons_self _ _
  · exact le_trans h.init_le hnext
  · rw [htr]
    intro p hp
    rcases mem_dictSet hp with he | ⟨hmem, _⟩
    · rw [he]
      exact htid_origin
    · exact h.tracksOrigin p hmem
  · rw [hre]
    intro r hr
    rcases List.mem_append.1 hr with hmem | hmem
    · exact h.resultsOrigin r hmem
    · simp only [List.mem_singleton] at hmem
      rw [hmem]
      exact htid_origin

/-- The loop invariant is preserved by the whole loop. -/
theorem loop_inv (th : ℚ) (n0 : ℕ) (keys1 : List ℕ) :
    ∀ (l : List (ℚ × ℚ)) (s : DetLoop), LoopInv n0 keys1 s →
      LoopInv n0 keys1 (l.foldl (detStep th) s)
  | [], _, h => h
  | d :: rest, s, h => by
    rw [List.foldl_cons]
    exact loop_inv th n0 keys1 rest _ (detStep_inv th d h)

/-- The id counter never decreases along the loop. -/
theorem loop_next_mono (th : ℚ) :
    ∀ (l : List (ℚ × ℚ)) (s : DetLoop), s.next_id ≤ (l.foldl (detStep th) s).next_id
  | [], _ => le_refl _
  | d :: rest, s => by
    rw [List.foldl_cons]
    exact le_trans (detStep_next_mono th s d) (loop_next_mono th rest _)

/-- A camera-intrinsic well-formed state enters the loop well-formed. -/
theorem initLoop_inv (tr : SimpleTracker) (h : WF tr) :
    LoopInv tr.next_id (keys (ageTracks tr).2) (initLoop tr) := by
  obtain ⟨h1, h2, h3, h4⟩ := h
  have e1 : (ageTracks tr).1
      = (tr.age.map fun p => (p.1, p.2 + 1)).filter fun p => ! decide (tr.max_age < p.2) :=
    rfl
  have hsub : List.Sublist (keys (ageTracks tr).2) (keys tr.tracks) := by
    unfold keys
    exact (List.filter_sublist _).map Prod.fst
  have hagesub : ∀ p ∈ (ageTracks tr).1, ∃ q ∈ tr.age, p = (q.1, q.2 + 1) := by
    intro p hp
    rw [e1] at hp
    have hp2 := List.mem_of_mem_filter hp
    obtain ⟨q, hq, he⟩ := List.mem_map.1 hp2
    exact ⟨q, hq, he.symm⟩
  constructor
  · exact h1.sublist hsub
  · have hmapeq : ((tr.age.map fun p => (p.1, p.2 + 1)).map Prod.fst)
        = tr.age.map Prod.fst := by
      rw [List.map_map]
      rfl
    have hs : List.Sublist (keys (ageTracks tr).1)
        ((tr.age.map fun p => (p.1, p.2 + 1)).map Prod.fst) := by
      rw [e1]
      unfold keys
      exact (List.filter_sublist _).map Prod.fst
    rw [hmapeq] at hs
    exact h2.sublist hs
  · intro p hp
    unfold initLoop at hp ⊢
    exact h3 p (List.mem_of_mem_filter hp)
  · intro p hp
    unfold initLoop at hp ⊢
    obtain ⟨q, hq, he⟩ := hagesub p hp
    rw [he]
    exact h4 q hq
  · intro t ht
    cases ht
  · exact List.nodup_nil
  · intro r hr
    cases hr
  · exact le_refl _
  · intro p hp
    left
    exact List.mem_map.2 ⟨p, hp, rfl⟩
  · intro r hr
    cases hr

/-- Each loop iteration appends exactly one result. -/
theorem loop_results_len (th : ℚ) :
    ∀ (l : List (ℚ × ℚ)) (s : DetLoop),
      ((l.foldl (detStep th) s).results).length = s.results.length + l.length
  | [], s => by simp
  | d :: rest, s => by
    rw [List.foldl_cons, loop_results_len th rest]
    obtain ⟨tid, _, _, _, hres, _⟩ := detStep_spec th s d
    rw [hres]
    simp
    omega

/-- The loop only ever appends to the results list. -/
theorem loop_results_prefix (th : ℚ) :
    ∀ (l : List (ℚ × ℚ)) (s : DetLoop),
      ∃ tail, (l.foldl (detStep th) s).results = s.results ++ tail
  | [], s => ⟨[], by simp⟩
  | d :: rest, s => by
    obtain ⟨tid, _, _, _, hres, _⟩ := detStep_spec th s d
    obtain ⟨tail, ht⟩ := loop_results_prefix th rest (detStep th s d)
    refine ⟨[(tid, d.1, d.2)] ++ tail, ?_⟩
    rw [List.foldl_cons, ht, hres, List.append_assoc]

/-- The loop echoes the detections, in input order, as the positions of
its results. -/
theorem loop_results_pos (th : ℚ) :
    ∀ (l : List (ℚ × ℚ)) (s : DetLoop),
      ((l.foldl (detStep th) s).results).map (fun r => (r.2.1, r.2.2))
        = (s.results.map fun r => (r.2.1, r.2.2)) ++ l
  | [], s => by simp
  | d :: rest, s => by
    rw [List.foldl_cons, loop_results_pos th rest]
    obtain ⟨tid, _, _, _, hres, _⟩ := detStep_spec th s d
    rw [hres]
    simp

theorem loopRun_succ (tr : SimpleTracker) (dets : List (ℚ × ℚ)) (i : ℕ)
    (xy : ℚ × ℚ) (h : dets[i]? = some xy) :
    loopRun tr dets (i + 1) = detStep tr.dist_th (loopRun tr dets i) xy := by
  unfold loopRun
  rw [List.take_succ, h]
  rw [List.foldl_append]
  rfl

theorem loopRun_results_len (tr : SimpleTracker) (dets : List (ℚ × ℚ)) (i : ℕ)
    (hi : i ≤ dets.length) : (loopRun tr dets i).results.length = i := by
  unfold loopRun
  rw [loop_results_len]
  simp only [initLoop, List.length_take, List.length_nil]
  omega

theorem update_eq_loopRun (tr : SimpleTracker) (dets : List (ℚ × ℚ)) :
    tr.update dets = ((loopRun tr dets dets.length).results,
      { tr with tracks := (loopRun tr dets dets.length).tracks,
                age := (loopRun tr dets dets.length).age,
                next_id := (loopRun tr dets dets.length).next_id }) := by
  unfold SimpleTracker.update loopRun
  rw [List.take_length]

/-- The `i`-th result of `update` is produced by the `i`-th loop
iteration, which either mints the running counter (when every unassigned
track is beyond `dist_th` or beyond the search bound) or matches a
nearest unassigned track within `dist_th`. -/
theorem update_result_at (tr : SimpleTracker) (dets : List (ℚ × ℚ)) (i : ℕ)
    (xy : ℚ × ℚ) (h : dets[i]? = some xy) :
    ∃ tid, (tr.update dets).1[i]? = some (tid, xy.1, xy.2)
      ∧ ((tid = (loopRun tr dets i).next_id
            ∧ ∀ t px py, (t, px, py) ∈ (loopRun tr dets i).tracks →
                t ∉ (loopRun tr dets i).assigned →
                tr.dist_th < 0 ∨ tr.dist_th * tr.dist_th < hypotSq (xy.1 - px) (xy.2 - py)
                  ∨ (10 : ℚ) ^ 18 ≤ hypotSq (xy.1 - px) (xy.2 - py))
        ∨ (∃ px py, (tid, px, py) ∈ (loopRun tr dets i).tracks
            ∧ tid ∉ (loopRun tr dets i).assigned
            ∧ ¬ tr.dist_th < 0
            ∧ hypotSq (xy.1 - px) (xy.2 - py) ≤ tr.dist_th * tr.dist_th
            ∧ ∀ t qx qy, (t, qx, qy) ∈ (loopRun tr dets i).tracks →
                t ∉ (loopRun tr dets i).assigned →
                hypotSq (xy.1 - px) (xy.2 - py) ≤ hypotSq (xy.1 - qx) (xy.2 - qy))) := by
  have hi : i < dets.length := (List.getElem?_eq_some_iff.1 h).1
  obtain ⟨tid, _, _, _, hres, hc⟩ :=
    detStep_spec tr.dist_th (loopRun tr dets i) xy
  rw [← loopRun_succ tr dets i xy h] at hres
  refine ⟨tid, ?_, ?_⟩
  case refine_2 =>
    rcases hc with ⟨he, _, hall⟩ | ⟨_, px, py, hm, hna, hn0, hdle, hmin⟩
    · exact Or.inl ⟨he, hall⟩
    · exact Or.inr ⟨px, py, hm, hna, hn0, hdle, hmin⟩
  -- final results extend the (i+1)-step results
  have hsplit : (loopRun tr dets dets.length) =
      ((dets.drop (i + 1)).foldl (detStep tr.dist_th) (loopRun tr dets (i + 1))) := by
    unfold loopRun
    rw [← List.foldl_append]
    rw [List.take_append_drop]
    rw [List.take_length]
  obtain ⟨tail, htail⟩ :=
    loop_results_prefix tr.dist_th (dets.drop (i + 1)) (loopRun tr dets (i + 1))
  have hlen : (loopRun tr dets i).results.length = i :=
    loopRun_results_len tr dets i (le_of_lt hi)
  rw [update_eq_loopRun]
  show ((loopRun tr dets dets.length).results)[i]? = _
  rw [hsplit, htail, hres, List.append_assoc]
  rw [List.getElem?_append_right (by omega)]
  rw [hlen]
  simp

/-- A dead id — absent from tracks, age, assigned and results, and below
the id counter — stays dead through one loop iteration. -/
theorem detStep_dead {t : ℕ} {s : DetLoop} (th : ℚ) (d : ℚ × ℚ)
    (hlt : t < s.next_id) (h1 : t ∉ keys s.tracks) (h2 : t ∉ keys s.age)
    (h3 : t ∉ s.assigned) (h4 : t ∉ keys s.results) :
    t < (detStep th s d).next_id ∧ t ∉ keys (detStep th s d).tracks
      ∧ t ∉ keys (detStep th s d).age ∧ t ∉ (detStep th s d).assigned
      ∧ t ∉ keys (detStep th s d).results := by
  obtain ⟨tid, htr, hag, has, hre, hc⟩ := detStep_spec th s d
  have htid : tid ≠ t := by
    rcases hc with ⟨he, _, _⟩ | ⟨_, px, py, hm, _, _⟩
    · rw [he]
      omega
    · intro hcontra
      exact h1 (hcontra ▸ List.mem_map.2 ⟨(tid, px, py), hm, rfl⟩)
  refine ⟨lt_of_lt_of_le hlt (detStep_next_mono th s d), ?_, ?_, ?_, ?_⟩
  · rw [htr]
    intro hmem
    rcases mem_keys_dictSet hmem with he | hmem2
    · exact htid he.symm
    · exact h1 hmem2
  · rw [hag]
    intro hmem
    rcases mem_keys_dictSet hmem with he | hmem2
    · exact htid he.symm
    · exact h2 hmem2
  · rw [has]
    intro hmem
    rcases List.mem_cons.1 hmem with he | hmem2
    · exact htid he.symm
    · exact h3 hmem2
  · rw [hre]
    unfold keys
    rw [List.map_append, List.mem_append]
    rintro (hmem | hmem)
    · exact h4 hmem
    · simp only [List.map_cons, List.map_nil, List.mem_singleton] at hmem
      exact htid hmem.symm

/-- A dead id stays dead through the whole loop. -/
theorem loop_dead (th : ℚ) :
    ∀ (l : List (ℚ × ℚ)) {t : ℕ} {s : DetLoop},
      t < s.next_id → t ∉ keys s.tracks → t ∉ keys s.age → t ∉ s.assigned →
      t ∉ keys s.results →
      t < (l.foldl (detStep th) s).next_id
        ∧ t ∉ keys (l.foldl (detStep th) s).tracks
        ∧ t ∉ keys (l.foldl (detStep th) s).age
        ∧ t ∉ (l.foldl (detStep th) s).assigned
        ∧ t ∉ keys (l.foldl (detStep th) s).results
  | [], _, _, hlt, h1, h2, h3, h4 => ⟨hlt, h1, h2, h3, h4⟩
  | d :: rest, t, s, hlt, h1, h2, h3, h4 => by
    rw [List.foldl_cons]
    obtain ⟨g0, g1, g2, g3, g4⟩ := detStep_dead th d hlt h1 h2 h3 h4
    exact loop_dead th rest g0 g1 g2 g3 g4

/-- A track id that is below the counter and tracked by neither map is
never seen again: one `update` keeps it dead and out of the results. -/
theorem update_dead {tr : SimpleTracker} {t : ℕ} (dets : List (ℚ × ℚ))
    (hlt : t < tr.next_id) (h1 : t ∉ keys tr.tracks) (h2 : t ∉ keys tr.age) :
    t < (tr.update dets).2.next_id ∧ t ∉ keys (tr.update dets).2.tracks
      ∧ t ∉ keys (tr.update dets).2.age ∧ t ∉ keys (tr.update dets).1 := by
  have e2 : (ageTracks tr).2 = tr.tracks.filter fun p =>
      ! decide (p.1 ∈ ((tr.age.map fun q => (q.1, q.2 + 1)).filter fun q =>
        decide (tr.max_age < q.2)).map Prod.fst) := rfl
  have e1 : (ageTracks tr).1
      = (tr.age.map fun p => (p.1, p.2 + 1)).filter fun p => ! decide (tr.max_age < p.2) :=
    rfl
  have g1 : t ∉ keys (initLoop tr).tracks := by
    show t ∉ keys (ageTracks tr).2
    rw [e2]
    intro hmem
    apply h1
    obtain ⟨p, hp, he⟩ := List.mem_map.1 hmem
    exact List.mem_map.2 ⟨p, List.mem_of_mem_filter hp, he⟩
  have g2 : t ∉ keys (initLoop tr).age := by
    show t ∉ keys (ageTracks tr).1
    rw [e1]
    intro hmem
    apply h2
    obtain ⟨p, hp, he⟩ := List.mem_map.1 hmem
    obtain ⟨q, hq, he2⟩ := List.mem_map.1 (List.mem_of_mem_filter hp)
    refine List.mem_map.2 ⟨q, hq, ?_⟩
    rw [← he, ← he2]
  have := loop_dead tr.dist_th dets (s := initLoop tr) hlt g1 g2
    (by intro hmem; cases hmem) (by intro hmem; cases hmem)
  exact ⟨this.1, this.2.1, this.2.2.1, this.2.2.2.2⟩

/-- `update` preserves tracker well-formedness. -/
theorem update_WF {tr : SimpleTracker} (h : WF tr) (dets : List (ℚ × ℚ)) :
    WF (tr.update dets).2 := by
  have hinv := loop_inv tr.dist_th tr.next_id (keys (ageTracks tr).2) dets
    (initLoop tr) (initLoop_inv tr h)
  exact ⟨hinv.tracksNodup, hinv.ageNodup, hinv.tracksLt, hinv.ageLt⟩

/-- `update` never decreases the id counter. -/
theorem update_next_mono (tr : SimpleTracker) (dets : List (ℚ × ℚ)) :
    tr.next_id ≤ (tr.update dets).2.next_id :=
  loop_next_mono tr.dist_th dets (initLoop tr)

/-- A dead id stays dead through any sequence of `update` calls. -/
theorem updates_dead {tr : SimpleTracker} {t : ℕ}
    (hlt : t < tr.next_id) (h1 : t ∉ keys tr.tracks) (h2 : t ∉ keys tr.age) :
    ∀ detss, t < (tr.updates detss).next_id
      ∧ t ∉ keys (tr.updates detss).tracks ∧ t ∉ keys (tr.updates detss).age
  | [] => ⟨hlt, h1, h2⟩
  | ds :: rest => by
    obtain ⟨g0, g1, g2, _⟩ := update_dead ds hlt h1 h2
    have := updates_dead g0 g1 g2 rest
    unfold SimpleTracker.updates
    rw [List.foldl_cons]
    exact this

/-- A track whose incremented age exceeds `max_age` is popped from both
maps by the ageing phase. -/
theorem age_evicted {tr : SimpleTracker} (hnd : (keys tr.age).Nodup)
    {tid a : ℕ} (hmem : (tid, a) ∈ tr.age) (hev : tr.max_age < a + 1) :
    tid ∉ keys (ageTracks tr).1 ∧ tid ∉ keys (ageTracks tr).2 := by
  have e1 : (ageTracks tr).1
      = (tr.age.map fun p => (p.1, p.2 + 1)).filter fun p => ! decide (tr.max_age < p.2) :=
    rfl
  have e2 : (ageTracks tr).2 = tr.tracks.filter fun p =>
      ! decide (p.1 ∈ ((tr.age.map fun q => (q.1, q.2 + 1)).filter fun q =>
        decide (tr.max_age < q.2)).map Prod.fst) := rfl
  constructor
  · rw [e1]
    intro hin
    obtain ⟨p, hp, hfst⟩ := List.mem_map.1 hin
    have hfil := hp
    rw [List.mem_filter] at hfil
    obtain ⟨q, hq, he⟩ := List.mem_map.1 hfil.1
    have hq2 : (tid, q.2) ∈ tr.age := by
      have : q = (q.1, q.2) := rfl
      rw [this] at hq
      have hqfst : q.1 = tid := by
        rw [← hfst, ← he]
      rw [hqfst] at hq
      exact hq
    have : q.2 = a := keys_nodup_val_eq hnd hq2 hmem
    rw [← he] at hfil
    have hcond := hfil.2
    simp only [Bool.not_eq_true', decide_eq_false_iff_not] at hcond
    rw [this] at hcond
    exact hcond hev
  · rw [e2]
    intro hin
    obtain ⟨p, hp, hfst⟩ := List.mem_map.1 hin
    rw [List.mem_filter] at hp
    have hcond := hp.2
    simp only [Bool.not_eq_true', decide_eq_false_iff_not] at hcond
    apply hcond
    rw [hfst]
    refine List.mem_map.2 ⟨(tid, a + 1), ?_, rfl⟩
    rw [List.mem_filter]
    constructor
    · exact List.mem_map.2 ⟨(tid, a), hmem, rfl⟩
    · simpa using hev

/-- C3: for every tracker state (well-formed, with the deployed kind of
threshold: nonnegative and below the `1e9` search bound) and every
detection list, `update` returns pairwise-distinct track ids, echoes the
detections in input order, and processes them greedily: the `i`-th
detection is matched to a nearest not-yet-claimed existing track
whenever one lies within `dist_th`, and is given the freshly minted
counter id when every unclaimed track is farther than `dist_th`. -/
theorem C3_tracker_greedy_unique (tr : SimpleTracker) (dets : List (ℚ × ℚ))
    (hwf : WF tr) (h0 : 0 ≤ tr.dist_th) (h9 : tr.dist_th < 10 ^ 9) :
    (keys (tr.update dets).1).Nodup
    ∧ (tr.update dets).1.map (fun r => (r.2.1, r.2.2)) = dets
    ∧ (∀ i xy, dets[i]? = some xy →
        ∃ tid, (tr.update dets).1[i]? = some (tid, xy.1, xy.2)
          ∧ ((∃ t px py, (t, px, py) ∈ (loopRun tr dets i).tracks
                ∧ t ∉ (loopRun tr dets i).assigned
                ∧ hypotSq (xy.1 - px) (xy.2 - py) ≤ tr.dist_th * tr.dist_th) →
              ∃ px py, (tid, px, py) ∈ (loopRun tr dets i).tracks
                ∧ tid ∉ (loopRun tr dets i).assigned
                ∧ hypotSq (xy.1 - px) (xy.2 - py) ≤ tr.dist_th * tr.dist_th
                ∧ ∀ t qx qy, (t, qx, qy) ∈ (loopRun tr dets i).tracks →
                    t ∉ (loopRun tr dets i).assigned →
                    hypotSq (xy.1 - px) (xy.2 - py) ≤ hypotSq (xy.1 - qx) (xy.2 - qy))
          ∧ ((∀ t px py, (t, px, py) ∈ (loopRun tr dets i).tracks →
                t ∉ (loopRun tr dets i).assigned →
                tr.dist_th * tr.dist_th < hypotSq (xy.1 - px) (xy.2 - py)) →
              tid = (loopRun tr dets i).next_id)) := by
  have hinv := loop_inv tr.dist_th tr.next_id (keys (ageTracks tr).2) dets
    (initLoop tr) (initLoop_inv tr hwf)
  refine ⟨hinv.resultsNodup, ?_, ?_⟩
  · have := loop_results_pos tr.dist_th dets (initLoop tr)
    simpa [initLoop] using this
  · intro i xy h
    obtain ⟨tid, hget, hc⟩ := update_result_at tr dets i xy h
    refine ⟨tid, hget, ?_, ?_⟩
    · rintro ⟨t, px, py, hm, hna, hdle⟩
      rcases hc with ⟨_, hall⟩ | ⟨px2, py2, hm2, hna2, _, hdle2, hmin2⟩
      · exfalso
        rcases hall t px py hm hna with hneg | hlt | hbig
        · exact absurd h0 (not_le.2 hneg)
        · exact absurd hdle (not_le.2 hlt)
        · have hsq : tr.dist_th * tr.dist_th < 10 ^ 18 := by
            have h1 : tr.dist_th * tr.dist_th < 10 ^ 9 * 10 ^ 9 :=
              mul_lt_mul'' h9 h9 h0 h0
            calc tr.dist_th * tr.dist_th < 10 ^ 9 * 10 ^ 9 := h1
              _ = (10 : ℚ) ^ 18 := by norm_num
          have := lt_of_le_of_lt hdle hsq
          exact absurd hbig (not_le.2 this)
      · exact ⟨px2, py2, hm2, hna2, hdle2, hmin2⟩
    · intro hall
      rcases hc with ⟨he, _⟩ | ⟨px, py, hm, hna, _, hdle, _⟩
      · exact he
      · exfalso
        exact absurd hdle (not_le.2 (hall tid px py hm hna))

/-- C3 witness: a fresh deployed-parameter tracker
(`dist_th = 35, max_age = 20`) run on two detections returns
duplicate-free track ids echoing the detections in order. -/
theorem C3_witness :
    (keys (SimpleTracker.update ⟨35, 20, 1, [], []⟩ [(0, 0), (100, 100)]).1).Nodup
    ∧ (SimpleTracker.update ⟨35, 20, 1, [], []⟩ [(0, 0), (100, 100)]).1.map
        (fun r => (r.2.1, r.2.2)) = [(0, 0), (100, 100)] :=
  ⟨(C3_tracker_greedy_unique ⟨35, 20, 1, [], []⟩ [(0, 0), (100, 100)]
      (by constructor <;> simp [keys]) (by norm_num) (by norm_num)).1,
   (C3_tracker_greedy_unique ⟨35, 20, 1, [], []⟩ [(0, 0), (100, 100)]
      (by constructor <;> simp [keys]) (by norm_num) (by norm_num)).2.1⟩

/-- C4: for every well-formed tracker state, a track whose age (frames
since last matched) passes `max_age` at this `update` is evicted from
both maps and cannot appear in the results; the id counter is monotone;
every returned id is either a surviving pre-existing track or at least
the entry counter (hence never issued before); well-formedness is
preserved; and an id that is dead (below the counter, tracked by
neither map) never reappears in the results of any later `update`. -/
theorem C4_eviction_no_reuse (tr : SimpleTracker) (dets : List (ℚ × ℚ))
    (hwf : WF tr) :
    (∀ tid a, (tid, a) ∈ tr.age → tr.max_age < a + 1 →
      tid ∉ keys (tr.update dets).2.tracks ∧ tid ∉ keys (tr.update dets).2.age
        ∧ tid ∉ keys (tr.update dets).1)
    ∧ tr.next_id ≤ (tr.update dets).2.next_id
    ∧ (∀ r ∈ (tr.update dets).1, r.1 < (tr.update dets).2.next_id)
    ∧ (∀ r ∈ (tr.update dets).1, r.1 ∈ keys (ageTracks tr).2 ∨ tr.next_id ≤ r.1)
    ∧ WF (tr.update dets).2
    ∧ (∀ tid, tid < tr.next_id → tid ∉ keys tr.tracks → tid ∉ keys tr.age →
        ∀ detss ds, tid ∉ keys ((SimpleTracker.updates tr detss).update ds).1) := by
  have hinv := loop_inv tr.dist_th tr.next_id (keys (ageTracks tr).2) dets
    (initLoop tr) (initLoop_inv tr hwf)
  refine ⟨?_, update_next_mono tr dets, ?_, ?_, update_WF hwf dets, ?_⟩
  · intro tid a hmem hev
    obtain ⟨hq1, hq2⟩ := age_evicted hwf.2.1 hmem hev
    have hlt : tid < tr.next_id := hwf.2.2.2 (tid, a) hmem
    have := loop_dead tr.dist_th dets (s := initLoop tr) hlt hq2 hq1
      (by intro hmem2; cases hmem2) (by intro hmem2; cases hmem2)
    exact ⟨this.2.1, this.2.2.1, this.2.2.2.2⟩
  · intro r hr
    exact hinv.assignedLt r.1 (hinv.resultsAssigned r hr)
  · intro r hr
    exact hinv.resultsOrigin r hr
  · intro tid h1 h2 h3 detss ds
    obtain ⟨g0, g1, g2⟩ := updates_dead h1 h2 h3 detss
    exact (update_dead ds g0 g1 g2).2.2.2

/-- C4 witness: on a fresh deployed-parameter tracker, the theorem
instantiates — the counter is monotone across an `update`, every
returned id is fresh or surviving, and the state stays well-formed. -/
theorem C4_witness :
    (SimpleTracker.next_id ⟨35, 20, 1, [], []⟩
        ≤ (SimpleTracker.update ⟨35, 20, 1, [], []⟩ [(0, 0)]).2.next_id)
    ∧ WF (SimpleTracker.update ⟨35, 20, 1, [], []⟩ [(0, 0)]).2 :=
  ⟨(C4_eviction_no_reuse ⟨35, 20, 1, [], []⟩ [(0, 0)]
      (by constructor <;> simp [keys])).2.1,
   (C4_eviction_no_reuse ⟨35, 20, 1, [], []⟩ [(0, 0)]
      (by constructor <;> simp [keys])).2.2.2.2.1⟩

/-! ## Global Identity Manager lemmas -/

theorem EPS_pos : (0 : ℝ) < EPS := by
  norm_num [EPS]

theorem norm_add_EPS_pos {n : ℕ} (v : Emb n) : 0 < ‖v‖ + EPS :=
  add_pos_of_nonneg_of_pos (norm_nonneg v) EPS_pos

theorem norm_l2norm {n : ℕ} (v : Emb n) : ‖l2norm v‖ = ‖v‖ / (‖v‖ + EPS) := by
  unfold l2norm
  rw [norm_smul, Real.norm_eq_abs, abs_inv, abs_of_pos (norm_add_EPS_pos v)]
  rw [div_eq_mul_inv, mul_comm]

theorem norm_l2norm_lt_one {n : ℕ} (v : Emb n) : ‖l2norm v‖ < 1 := by
  rw [norm_l2norm]
  rw [div_lt_one (norm_add_EPS_pos v)]
  linarith [EPS_pos]

/-- Cosine similarity, computed on `1e-12`-guarded normalizations, is
strictly above the `-1.0` sentinel. -/
theorem neg_one_lt_cosine {n : ℕ} (a b : Emb n) : -1 < cosine a b := by
  have h1 : |cosine a b| ≤ ‖l2norm a‖ * ‖l2norm b‖ := abs_real_inner_le_norm _ _
  have h2 : ‖l2norm a‖ * ‖l2norm b‖ < 1 := by
    calc ‖l2norm a‖ * ‖l2norm b‖ ≤ ‖l2norm a‖ * 1 :=
          mul_le_mul_of_nonneg_left (le_of_lt (norm_l2norm_lt_one b)) (norm_nonneg _)
      _ = ‖l2norm a‖ := mul_one _
      _ < 1 := norm_l2norm_lt_one a
  exact (abs_lt.1 (lt_of_le_of_lt h1 h2)).1

theorem bf_go {n : ℕ} (e : Emb n) :
    ∀ (l : List (ℕ × Emb n)) (acc : Option ℕ × ℝ),
      (l.foldl (gStep e) acc = acc
        ∨ ∃ g rep, (g, rep) ∈ l ∧ l.foldl (gStep e) acc = (some g, cosine e rep))
      ∧ acc.2 ≤ (l.foldl (gStep e) acc).2
      ∧ (∀ g rep, (g, rep) ∈ l → cosine e rep ≤ (l.foldl (gStep e) acc).2)
      ∧ (acc.1 ≠ none → (l.foldl (gStep e) acc).1 ≠ none)
  | [], acc => by simp
  | p :: rest, acc => by
    have ih := bf_go e rest (gStep e acc p)
    rw [List.foldl_cons]
    have hstep : gStep e acc p = acc
        ∨ (gStep e acc p = (some p.1, cosine e p.2) ∧ acc.2 < cosine e p.2) := by
      unfold gStep
      by_cases h2 : acc.2 < cosine e p.2
      · right
        exact ⟨if_pos h2, h2⟩
      · left
        exact if_neg h2
    have hstep2 : acc.2 ≤ (gStep e acc p).2 := by
      rcases hstep with h | ⟨h, hlt⟩
      · rw [h]
      · rw [h]
        exact le_of_lt hlt
    have hcand : cosine e p.2 ≤ (gStep e acc p).2 := by
      unfold gStep
      by_cases h2 : acc.2 < cosine e p.2
      · rw [if_pos h2]
      · rw [if_neg h2]
        exact le_of_not_lt h2
    refine ⟨?_, ?_, ?_, ?_⟩
    · rcases ih.1 with he | ⟨g, rep, hm, he⟩
      · rw [he]
        rcases hstep with h | ⟨h, _⟩
        · left
          exact h
        · right
          refine ⟨p.1, p.2, ?_, h⟩
          have hp : (p.1, p.2) = p := rfl
          rw [hp]
          exact List.mem_cons_self p rest
      · right
        exact ⟨g, rep, List.mem_cons_of_mem _ hm, he⟩
    · exact le_trans hstep2 ih.2.1
    · intro g rep hm
      rcases List.mem_cons.1 hm with he | hm2
      · have h2 : p.2 = rep := by rw [← he]
        exact le_trans (h2 ▸ hcand) ih.2.1
      · exact ih.2.2.1 g rep hm2
    · intro hne
      apply ih.2.2.2
      rcases hstep with h | ⟨h, _⟩
      · rw [h]
        exact hne
      · rw [h]
        simp

/-- A nonempty gallery always yields a matched id: the first entry beats
the `-1.0` sentinel because cosine similarity is strictly above it. -/
theorem bestFold_ne_nil {n : ℕ} (e : Emb n) {l : List (ℕ × Emb n)} (h : l ≠ []) :
    ∃ g rep, (g, rep) ∈ l ∧ bestFold l e = (some g, cosine e rep) := by
  match l, h with
  | p :: rest, _ =>
    have hfirst : gStep e (none, -1) p = (some p.1, cosine e p.2) := by
      unfold gStep
      exact if_pos (neg_one_lt_cosine e p.2)
    unfold bestFold
    rw [List.foldl_cons, hfirst]
    rcases (bf_go e rest (some p.1, cosine e p.2)).1 with he | ⟨g, rep, hm, he⟩
    · refine ⟨p.1, p.2, ?_, he⟩
      have hp : (p.1, p.2) = p := rfl
      rw [hp]
      exact List.mem_cons_self p rest
    · exact ⟨g, rep, List.mem_cons_of_mem _ hm, he⟩

/-- C2: `assign` returns the maximum cosine similarity against the
gallery; on an empty gallery it mints the counter id with the `-1.0`
sentinel and stores the embedding; on a best similarity below `th` it
mints with that similarity and stores the embedding; otherwise it
returns the id of a maximally similar entry with that similarity and
replaces exactly that entry's representative by
`l2norm (ema • rep + (1 - ema) • e)`; a minted entry with a fresh id is
appended to the gallery. -/
theorem C2_assign_functional_spec {n : ℕ} (m : GlobalIDManager n) (e : Emb n) :
    (∀ p ∈ m.gallery, cosine e p.2 ≤ bestSim m e)
    ∧ (m.gallery = [] →
        assign m e = ((m.next_gid, -1),
          { m with next_gid := m.next_gid + 1,
                   gallery := dictSet m.gallery m.next_gid e }))
    ∧ (m.gallery ≠ [] →
        (∃ p ∈ m.gallery, cosine e p.2 = bestSim m e)
        ∧ (bestSim m e < m.th →
            assign m e = ((m.next_gid, bestSim m e),
              { m with next_gid := m.next_gid + 1,
                       gallery := dictSet m.gallery m.next_gid e }))
        ∧ (m.th ≤ bestSim m e →
            ∃ g rep, (g, rep) ∈ m.gallery ∧ cosine e rep = bestSim m e
              ∧ assign m e = ((g, bestSim m e),
                  { m with gallery := m.gallery.map fun p =>
                      if p.1 = g then (p.1, l2norm (m.ema • p.2 + (1 - m.ema) • e))
                      else p })))
    ∧ (m.next_gid ∉ keys m.gallery →
        dictSet m.gallery m.next_gid e = m.gallery ++ [(m.next_gid, e)]) := by
  refine ⟨?_, ?_, ?_, ?_⟩
  · intro p hp
    have := (bf_go e m.gallery (none, -1)).2.2.1 p.1 p.2 hp
    exact this
  · intro h
    simp only [assign, bestFold, h, List.foldl_nil]
    simp
  · intro h
    obtain ⟨g, rep, hm, he⟩ := bestFold_ne_nil e h
    have hsim : bestSim m e = cosine e rep := by
      unfold bestSim
      rw [he]
    refine ⟨⟨(g, rep), hm, hsim.symm⟩, ?_, ?_⟩
    · intro hlt
      have hlt2 : (bestFold m.gallery e).2 < m.th := hlt
      simp only [assign]
      rw [if_pos (Or.inr hlt2)]
      rfl
    · intro hge
      have hcond : ¬ ((bestFold m.gallery e).1 = none ∨ (bestFold m.gallery e).2 < m.th) := by
        rintro (h1 | h2)
        · rw [he] at h1
          cases h1
        · exact absurd h2 (not_lt.2 hge)
      simp only [assign]
      rw [if_neg hcond]
      refine ⟨g, rep, hm, hsim.symm, ?_⟩
      rw [he, hsim]
      simp only [Option.getD_some]
  · intro h
    apply dictSet_of_not_mem
    intro p hp hk
    exact h (List.mem_map.2 ⟨p, hp, hk⟩)

/-- The EMA blend of a near-unit representative with a unit embedding,
re-normalized with the `1e-12` guard, stays within `1e-11` of unit
norm. -/
theorem ema_norm_bound {n : ℕ} (r e : Emb n)
    (h1 : 1 - 1 / 10 ^ 11 ≤ ‖r‖) (h2 : ‖r‖ ≤ 1) (he : ‖e‖ = 1) :
    1 - 1 / 10 ^ 11 ≤ ‖l2norm ((9 / 10 : ℝ) • r + (1 / 10 : ℝ) • e)‖
      ∧ ‖l2norm ((9 / 10 : ℝ) • r + (1 / 10 : ℝ) • e)‖ ≤ 1 := by
  set w := (9 / 10 : ℝ) • r + (1 / 10 : ℝ) • e with hw
  have hwnorm : (79 : ℝ) / 100 ≤ ‖w‖ := by
    have ha : ‖(9 / 10 : ℝ) • r‖ = (9 / 10) * ‖r‖ := by
      rw [norm_smul, Real.norm_eq_abs]
      norm_num
    have hb : ‖(1 / 10 : ℝ) • e‖ = 1 / 10 := by
      rw [norm_smul, Real.norm_eq_abs, he]
      norm_num
    have hsub : ‖(9 / 10 : ℝ) • r‖ ≤ ‖w‖ + ‖(1 / 10 : ℝ) • e‖ := by
      have hdiff : (9 / 10 : ℝ) • r = w - (1 / 10 : ℝ) • e := by
        rw [hw]
        abel
      rw [hdiff]
      exact norm_sub_le _ _
    rw [ha, hb] at hsub
    nlinarith
  have hpos : 0 < ‖w‖ + EPS := norm_add_EPS_pos w
  have hE : EPS = 1 / 10 ^ 12 := rfl
  constructor
  · rw [norm_l2norm, le_div_iff₀ hpos, hE]
    nlinarith
  · rw [norm_l2norm, div_le_one hpos]
    linarith [EPS_pos]

/-- One `assign` call with a unit-norm embedding preserves the gallery
norm invariant (for the deployed `ema = 0.9`). -/
theorem assign_inv {n : ℕ} {m : GlobalIDManager n} {e : Emb n}
    (hema : m.ema = 9 / 10) (hinv : GalleryInv m) (he : ‖e‖ = 1) :
    (assign m e).2.ema = 9 / 10 ∧ GalleryInv (assign m e).2 := by
  by_cases hcond : (bestFold m.gallery e).1 = none ∨ (bestFold m.gallery e).2 < m.th
  · simp only [assign]
    rw [if_pos hcond]
    refine ⟨hema, ?_⟩
    intro p hp
    rcases mem_dictSet hp with hnew | ⟨hold, _⟩
    · rw [hnew]
      constructor
      · show 1 - 1 / 10 ^ 11 ≤ ‖e‖
        rw [he]
        norm_num
      · show ‖e‖ ≤ 1
        rw [he]
    · exact hinv p hold
  · simp only [assign]
    rw [if_neg hcond]
    refine ⟨hema, ?_⟩
    intro p hp
    obtain ⟨q, hq, hqe⟩ := List.mem_map.1 hp
    by_cases hk : q.1 = (bestFold m.gallery e).1.getD m.next_gid
    · rw [if_pos hk] at hqe
      rw [← hqe]
      have hblend : m.ema • q.2 + (1 - m.ema) • e
          = (9 / 10 : ℝ) • q.2 + (1 / 10 : ℝ) • e := by
        rw [hema]
        norm_num
      show 1 - 1 / 10 ^ 11 ≤ ‖l2norm (m.ema • q.2 + (1 - m.ema) • e)‖
        ∧ ‖l2norm (m.ema • q.2 + (1 - m.ema) • e)‖ ≤ 1
      rw [hblend]
      exact ema_norm_bound q.2 e (hinv q hq).1 (hinv q hq).2 he
    · rw [if_neg hk] at hqe
      rw [← hqe]
      exact hinv q hq

/-- Folding `assign` over unit embeddings preserves the invariant. -/
theorem runAssigns_inv {n : ℕ} :
    ∀ (es : List (Emb n)) (m : GlobalIDManager n), m.ema = 9 / 10 → GalleryInv m →
      (∀ e ∈ es, ‖e‖ = 1) →
      (runAssigns m es).ema = 9 / 10 ∧ GalleryInv (runAssigns m es)
  | [], _, h1, h2, _ => ⟨h1, h2⟩
  | e :: rest, m, h1, h2, h3 => by
    have hstep := assign_inv h1 h2 (h3 e (List.mem_cons_self e rest))
    unfold runAssigns
    rw [List.foldl_cons]
    exact runAssigns_inv rest _ hstep.1 hstep.2
      (fun x hx => h3 x (List.mem_cons_of_mem e hx))

/-- C1 (amended): starting from an empty gallery with the deployed
`ema = 0.9`, if every embedding passed to `assign` has unit norm then
after any sequence of calls every stored representative — including one
just minted — has norm within `1e-11` of 1.  (The unqualified claim is
false: the mint path stores the raw unnormalized copy of the input,
see the counterexample.) -/
theorem C1_unit_norm_amended {n : ℕ} (th : ℝ) (k : ℕ) (es : List (Emb n))
    (h : ∀ e ∈ es, ‖e‖ = 1) :
    ∀ p ∈ (runAssigns { th := th, ema := 9 / 10, next_gid := k, gallery := [] } es).gallery,
      |‖p.2‖ - 1| ≤ 1 / 10 ^ 11 := by
  intro p hp
  have hinv := runAssigns_inv es ⟨th, 9 / 10, k, []⟩ rfl (by intro q hq; cases hq) h
  obtain ⟨hl, hu⟩ := hinv.2 p hp
  rw [abs_le]
  constructor <;> linarith

/-- C1 counterexample: `assign` on the fresh deployed manager, fed the
non-unit embedding `(2, 0, …, 0)`, stores it as minted representative
with norm 2 — not unit norm within any floating-point epsilon. -/
theorem C1_counterexample :
    (assign gid_manager e2big).2.gallery = [(1, e2big)]
    ∧ ‖e2big‖ = 2
    ∧ ¬ |‖e2big‖ - 1| ≤ 1 / 10 ^ 11 := by
  have hnorm : ‖e2big‖ = 2 := by
    unfold e2big
    rw [EuclideanSpace.norm_single, Real.norm_eq_abs]
    norm_num
  refine ⟨?_, hnorm, ?_⟩
  · simp only [assign, bestFold, gid_manager, List.foldl_nil]
    simp [dictSet]
  · rw [hnorm]
    norm_num

/-- C1 witness: one `assign` of a unit embedding on an empty gallery —
the theorem applies, and the single stored representative is within
`1e-11` of unit norm. -/
theorem C1_witness :
    (runAssigns { th := (3 : ℝ) / 4, ema := 9 / 10, next_gid := 1,
                  gallery := ([] : List (ℕ × Emb 128)) } [e1unit]).gallery
        = [(1, e1unit)]
    ∧ |‖e1unit‖ - 1| ≤ 1 / 10 ^ 11 := by
  have he1 : ‖e1unit‖ = 1 := by
    unfold e1unit
    rw [EuclideanSpace.norm_single, Real.norm_eq_abs]
    norm_num
  have heval : (runAssigns { th := (3 : ℝ) / 4, ema := 9 / 10, next_gid := 1,
                             gallery := ([] : List (ℕ × Emb 128)) } [e1unit]).gallery
      = [(1, e1unit)] := by
    show ((assign ⟨(3 : ℝ) / 4, 9 / 10, 1, []⟩ e1unit).2).gallery = _
    simp only [assign, bestFold, List.foldl_nil]
    simp [dictSet]
  refine ⟨heval, ?_⟩
  exact C1_unit_norm_amended ((3 : ℝ) / 4) 1 [e1unit]
    (by intro e hee; rw [List.mem_singleton.1 hee]; exact he1) (1, e1unit)
    (by rw [heval]; exact List.mem_singleton.2 rfl)

/-! ## Embedding-parsing and pipeline lemmas -/

theorem chunk2_length : ∀ l : List ℕ, (chunk2 l).length = l.length / 2
  | [] => rfl
  | [_] => by simp [chunk2]
  | _ :: _ :: rest => by
    simp only [chunk2, List.length_cons, chunk2_length rest]
    omega

theorem chunk4_length : ∀ l : List ℕ, (chunk4 l).length = l.length / 4
  | [] => rfl
  | [_] => by simp [chunk4]
  | [_, _] => by simp [chunk4]
  | [_, _, _] => by simp [chunk4]
  | _ :: _ :: _ :: _ :: rest => by
    simp only [chunk4, List.length_cons, chunk4_length rest]
    omega

theorem length_filterMap_detXY (dets : List Det) :
    (dets.filterMap detXY).length = (posDets dets).length := by
  unfold posDets
  induction dets with
  | nil => rfl
  | cons d rest ih =>
    rw [List.filterMap_cons, List.filter_cons]
    cases h : detXY d with
    | none => simpa [h] using ih
    | some xy => simpa [h] using ih

theorem assign_run_go_len {n : ℕ} :
    ∀ (embs : List (Emb n)) (acc : List (ℕ × ℝ) × GlobalIDManager n),
      ((embs.foldl (fun acc e =>
          let r := assign acc.2 e
          (acc.1 ++ [r.1], r.2)) acc).1).length = acc.1.length + embs.length
  | [], acc => by simp
  | e :: rest, acc => by
    rw [List.foldl_cons, assign_run_go_len rest]
    simp only [List.length_append, List.length_cons, List.length_nil]
    omega

theorem assign_run_len {n : ℕ} (g : GlobalIDManager n) (embs : List (Emb n)) :
    (assign_run g embs).1.length = embs.length := by
  unfold assign_run
  rw [assign_run_go_len]
  simp

theorem update_results_len (tr : SimpleTracker) (dets : List (ℚ × ℚ)) :
    (tr.update dets).1.length = dets.length := by
  show ((dets.foldl (detStep tr.dist_th) (initLoop tr)).results).length = _
  rw [loop_results_len]
  simp [initLoop]

/-- C7: malformed embedding payloads — a non-1-D or 0-D `embedding`
field, a flat list of the wrong dimension, a base64 string that fails
to decode, an unknown `emb_dtype` tag, or a byte buffer of the wrong
size — all make `_parse_embedding` return `None` rather than raise;
the frame is still fully processed (one `cam_out` entry per positioned
detection), and each track's fed embedding is a function of its own
detection alone: the parsed vector, or the mock embedding of its
`true_id` when parsing returned `None`. -/
theorem C7_malformed_embedding_fallback {β : Type} (mock2 : ℤ → β)
    (lift : List ℚ → β) (mock : ℤ → Emb 128) (tr : SimpleTracker)
    (g : GlobalIDManager 128) (dets : List Det) (ts : ℚ) :
    (∀ d v, d.embedding = some (EmbField.nested v) → parse_embedding 128 d = none)
    ∧ (∀ d q, d.embedding = some (EmbField.scalar q) → parse_embedding 128 d = none)
    ∧ (∀ d v, d.embedding = some (EmbField.flat v) → v.length ≠ 128 →
        parse_embedding 128 d = none)
    ∧ (∀ d s, d.embedding = none → d.emb_b64 = some s → s ≠ "" → b64decode s = none →
        parse_embedding 128 d = none)
    ∧ (∀ d s dt, d.embedding = none → d.emb_b64 = some s → s ≠ "" →
        d.emb_dtype = some dt → dt ≠ "float16" → dt ≠ "float32" →
        parse_embedding 128 d = none)
    ∧ (∀ d s raw, d.embedding = none → d.emb_b64 = some s → s ≠ "" →
        b64decode s = some raw → d.emb_dtype.getD "float16" = "float16" →
        raw.length ≠ 256 → parse_embedding 128 d = none)
    ∧ (∀ d s raw, d.embedding = none → d.emb_b64 = some s → s ≠ "" →
        b64decode s = some raw → d.emb_dtype.getD "float16" = "float32" →
        raw.length ≠ 512 → parse_embedding 128 d = none)
    ∧ (process_frame mock tr g dets ts).1.length = (posDets dets).length
    ∧ fed_embeddings mock2 lift 128 dets
        = (posDets dets).map (fed_embedding mock2 lift 128)
    ∧ (∀ d, parse_embedding 128 d = none →
        fed_embedding mock2 lift 128 d = mock2 (d.true_id.getD 0)) := by
  refine ⟨?_, ?_, ?_, ?_, ?_, ?_, ?_, ?_, rfl, ?_⟩
  · intro d v h
    simp [parse_embedding, h, asarray]
  · intro d q h
    simp [parse_embedding, h, asarray]
  · intro d v h hlen
    simp [parse_embedding, h, asarray, hlen]
  · intro d s h1 h2 hs hdec
    simp [parse_embedding, h1, h2, hs, hdec]
  · intro d s dt h1 h2 hs hdt hne1 hne2
    simp only [parse_embedding, h1, h2, hs, hdt, hne1, hne2]
    simp [hs, hne1, hne2]
    cases b64decode s <;> rfl
  · intro d s raw h1 h2 hs hdec hdt hlen
    by_cases hmod : raw.length % 2 = 0
    · have hchunk : (chunk2 raw).length ≠ 128 := by
        rw [chunk2_length]
        omega
      simp [parse_embedding, h1, h2, hs, hdec, hdt, frombuffer16, hmod, hchunk]
    · simp [parse_embedding, h1, h2, hs, hdec, hdt, frombuffer16, hmod]
  · intro d s raw h1 h2 hs hdec hdt hlen
    have hne : d.emb_dtype.getD "float16" ≠ "float16" := by
      rw [hdt]
      decide
    by_cases hmod : raw.length % 4 = 0
    · have hchunk : (chunk4 raw).length ≠ 128 := by
        rw [chunk4_length]
        omega
      simp [parse_embedding, h1, h2, hs, hdec, hdt, hne, frombuffer32, hmod, hchunk]
    · simp [parse_embedding, h1, h2, hs, hdec, hdt, hne, frombuffer32, hmod]
  · show (List.zipWith _ (tr.update (dets.filterMap detXY)).1
        (assign_run g (fed_embeddings mock liftQ 128 dets)).1).length = _
    rw [List.length_zipWith, update_results_len, assign_run_len]
    unfold fed_embeddings
    rw [List.length_map, length_filterMap_detXY, min_self]
  · intro d h
    unfold fed_embedding
    rw [h]

/-- C7 witness: a detection with position, base64 payload and the
unknown dtype tag `float64` — parsing returns `None` and the fed
embedding is the mock embedding of its `true_id` 7 (here with the
identity as the mock source). -/
theorem C7_witness :
    parse_embedding 128 detBadDtype = none
    ∧ fed_embedding (fun t => t) (fun _ => (0 : ℤ)) 128 detBadDtype = 7 := by
  have hp : parse_embedding 128 detBadDtype = none :=
    (C7_malformed_embedding_fallback (fun t => t) (fun _ => (0 : ℤ))
        (fun _ => 0) ⟨35, 20, 1, [], []⟩ gid_manager [] 0).2.2.2.2.1
      detBadDtype "AAAA" "float64" rfl rfl (by decide) rfl (by decide) (by decide)
  refine ⟨hp, ?_⟩
  have hf := (C7_malformed_embedding_fallback (fun t => t) (fun _ => (0 : ℤ))
      (fun _ => 0) ⟨35, 20, 1, [], []⟩ gid_manager [] 0).2.2.2.2.2.2.2.2.2
    detBadDtype hp
  rw [hf]
  rfl

/-! ## Mock embedding determinism (C8) -/

/-- C8 (amended): with noise-free parameters, two calls of
`mock_embedding` with the same tag produce bit-identical vectors, no
matter the state of the global generator, and that vector is the
re-normalized base vector drawn from the stable (non-process-salted)
hash seed of the tag.  (The pipeline's own calls use the default
`noise = 0.02` drawn from the unseeded global generator and are *not*
reproducible across runs — see the counterexample.) -/
theorem C8_mock_noise_free_deterministic {σ : Type} (sha256f : String → List ℕ)
    (sr : ℕ → (d : ℕ) → Emb d) (gr : σ → (d : ℕ) → Emb d × σ)
    (tid : ℤ) (dim : ℕ) (g1 g2 : σ) :
    (mock_embedding sha256f sr gr tid dim 0 g1).1
        = (mock_embedding sha256f sr gr tid dim 0 g2).1
    ∧ (mock_embedding sha256f sr gr tid dim 0 g1).1
        = l2norm (l2norm (sr (stable_seed sha256f [toString tid]) dim)) := by
  constructor <;> simp [mock_embedding]

/-- C8 counterexample: with the pipeline's default `noise = 0.02`, the
fallback embedding depends on the global generator state — two calls
with the same tag from different global states differ, so the
pipeline's fallback vector is not reproducible across runs. -/
theorem C8_counterexample :
    (mock_embedding shaZero srZero grSingle 0 128 (2 / 100) 1).1
      ≠ (mock_embedding shaZero srZero grSingle 0 128 (2 / 100) 0).1 := by
  have h128 : (0 : ℕ) < 128 := by norm_num
  have hz : l2norm (0 : Emb 128) = 0 := smul_zero _
  have hlhs : (mock_embedding shaZero srZero grSingle 0 128 (2 / 100) 1).1
      = l2norm ((2 / 100 : ℝ) • EuclideanSpace.single (⟨0, h128⟩ : Fin 128) (1 : ℝ)) := by
    simp [mock_embedding, srZero, grSingle, hz]
  have hrhs : (mock_embedding shaZero srZero grSingle 0 128 (2 / 100) 0).1 = 0 := by
    simp [mock_embedding, srZero, grSingle, hz]
  intro heq
  rw [hlhs, hrhs] at heq
  have happ := congrFun heq (⟨0, h128⟩ : Fin 128)
  have hnorm : ‖(2 / 100 : ℝ) • EuclideanSpace.single (⟨0, h128⟩ : Fin 128) (1 : ℝ)‖
      = 2 / 100 := by
    rw [norm_smul, EuclideanSpace.norm_single, norm_one, Real.norm_eq_abs]
    norm_num
  simp only [l2norm, PiLp.smul_apply, PiLp.zero_apply, EuclideanSpace.single_apply,
    if_pos, smul_eq_mul, hnorm] at happ
  rw [show EPS = 1 / 10 ^ 12 from rfl] at happ
  norm_num at happ

/-! ## The broken `/ui` handler (C9) -/

/-- C9 (code bug): the `/ui` handler reads the function-local, unbound
`focused_gid` at its initial focus-state send, so it raises
`UnboundLocalError` on every connection and never reaches the receive
loop — no `focusGlobalId` normalization or rebroadcast, and no
`cameraMeta` upsert, can ever happen. -/
theorem C9_ui_ws_unbound_local {μ : Type} (msgs : List μ) :
    ui_ws_run msgs = Except.error "UnboundLocalError"
    ∧ ui_ws_initial_focus_read = Except.error "UnboundLocalError" :=
  ⟨rfl, rfl⟩

/-- C5 witness: the scenario 1, 2, 4 instantiated through the theorem —
gap counter 1, `last_seq = 4` (and the first frame, arriving on an empty
stats entry, does not increment the counter). -/
theorem C5_witness :
    ((update_cam_stats none 0 (some 1) none).seq_gap_count = 0
      ∧ (update_cam_stats none 0 (some 1) none).last_seq = some 1)
    ∧ (run_cam_stats [(0, some 1, none), (1, some 2, none), (2, some 4, none)]).seq_gap_count = 1
    ∧ (run_cam_stats [(0, some 1, none), (1, some 2, none), (2, some 4, none)]).last_seq = some 4 :=
  ⟨(C5_seq_gap_spec none 0 none).2.1 1 rfl,
   (C5_seq_gap_spec none 0 none).2.2.2⟩

end CCTV
